import Mathlib

/-!
Verification development for the blockchain-learn repository.

The repository's core under scrutiny here is the `rust-04/ledgerdb` ledger
engine (blocks, transactions, Merkle commitments, proof of work, UTXO chain
state) and the `rust-03/chain_kv_full` key/value chain variant.  The Rust
code is shallowly embedded: pure Rust functions become Lean functions over
`Nat`/`Int`/`List Nat` (machine integers carry explicit `% 2^w` where Rust
wraps), byte strings are `List Nat` of values `< 256`, `Result`/fallible code
becomes `Except`/`Option`, and stateful methods pass state explicitly.
SHA-256 and the bincode/chrono byte encodings are implemented concretely so
that every definition evaluates on concrete inputs.  Ed25519 itself is kept
abstract (a parameter with its signing contract), exactly as the spec treats
the signing capability.
-/

namespace BC

instance [DecidableEq ε] [DecidableEq α] : DecidableEq (Except ε α) := fun a b =>
  match a, b with
  | .error e1, .error e2 =>
    if h : e1 = e2 then .isTrue (by rw [h]) else .isFalse (by simp [h])
  | .ok v1, .ok v2 =>
    if h : v1 = v2 then .isTrue (by rw [h]) else .isFalse (by simp [h])
  | .error _, .ok _ => .isFalse (by simp)
  | .ok _, .error _ => .isFalse (by simp)

/-! # Byte-level helpers -/

/-- Little-endian 4-byte encoding of a `u32` value. -/
def u32le (n : Nat) : List Nat :=
  [n % 256, n / 256 % 256, n / 65536 % 256, n / 16777216 % 256]

/-- Little-endian 8-byte encoding of a `u64` value. -/
def u64le (n : Nat) : List Nat :=
  [n % 256, n / 256 % 256, n / 65536 % 256, n / 16777216 % 256,
   n / 4294967296 % 256, n / 1099511627776 % 256,
   n / 281474976710656 % 256, n / 72057594037927936 % 256]

/-- Little-endian 8-byte two's-complement encoding of an `i64` value. -/
def i64le (t : Int) : List Nat :=
  u64le ((t % (2 ^ 64 : Nat)).toNat)

/-- Big-endian 8-byte encoding (used by SHA-256 length padding). -/
def u64be (n : Nat) : List Nat :=
  [n / 72057594037927936 % 256, n / 281474976710656 % 256,
   n / 1099511627776 % 256, n / 4294967296 % 256,
   n / 16777216 % 256, n / 65536 % 256, n / 256 % 256, n % 256]

/-- UTF-8 encoding of a single character. -/
def utf8Char (c : Char) : List Nat :=
  let n := c.toNat
  if n < 128 then [n]
  else if n < 2048 then [192 + n / 64, 128 + n % 64]
  else if n < 65536 then [224 + n / 4096, 128 + n / 64 % 64, 128 + n % 64]
  else [240 + n / 262144, 128 + n / 4096 % 64, 128 + n / 64 % 64, 128 + n % 64]

/-- UTF-8 encoding of a string, as Rust's `str::as_bytes`. -/
def utf8 (s : String) : List Nat :=
  (s.data.map utf8Char).flatten

/-- Lowercase hex digit for a value `< 16`. -/
def hexDigit (n : Nat) : Char :=
  if n < 10 then Char.ofNat (48 + n) else Char.ofNat (87 + n)

/-- Two lowercase hex digits of one byte. -/
def hexByte (b : Nat) : List Char :=
  [hexDigit (b / 16), hexDigit (b % 16)]

/-- Lowercase hex encoding of a byte string (Rust `hex::encode`). -/
def hexEncode (bs : List Nat) : String :=
  String.mk ((bs.map hexByte).flatten)

/-- Value of one hex digit character, accepting both cases (Rust `hex::decode`). -/
def hexDigitValue (c : Char) : Option Nat :=
  let n := c.toNat
  if 48 ≤ n ∧ n ≤ 57 then some (n - 48)
  else if 97 ≤ n ∧ n ≤ 102 then some (n - 87)
  else if 65 ≤ n ∧ n ≤ 70 then some (n - 55)
  else none

/-- Hex decoding over a character list: pairs of digits, even length required. -/
def hexDecodeList : List Char → Option (List Nat)
  | [] => some []
  | [_] => none
  | c1 :: c2 :: rest => do
    let h ← hexDigitValue c1
    let l ← hexDigitValue c2
    let r ← hexDecodeList rest
    pure ((h * 16 + l) :: r)

/-- Hex decoding of a string (Rust `hex::decode`). -/
def hexDecode (s : String) : Option (List Nat) :=
  hexDecodeList s.data

/-! # SHA-256, executable over byte lists -/

/-- 32-bit rotate right. -/
def rotr (n x : Nat) : Nat :=
  ((x >>> n) ||| (x <<< (32 - n))) % 4294967296

/-- SHA-256 big sigma-0. -/
def bSig0 (x : Nat) : Nat := (rotr 2 x) ^^^ (rotr 13 x) ^^^ (rotr 22 x)

/-- SHA-256 big sigma-1. -/
def bSig1 (x : Nat) : Nat := (rotr 6 x) ^^^ (rotr 11 x) ^^^ (rotr 25 x)

/-- SHA-256 small sigma-0. -/
def sSig0 (x : Nat) : Nat := (rotr 7 x) ^^^ (rotr 18 x) ^^^ (x >>> 3)

/-- SHA-256 small sigma-1. -/
def sSig1 (x : Nat) : Nat := (rotr 17 x) ^^^ (rotr 19 x) ^^^ (x >>> 10)

/-- SHA-256 round constants. -/
def shaK : List Nat :=
  [1116352408, 1899447441, 3049323471, 3921009573,
   961987163, 1508970993, 2453635748, 2870763221,
   3624381080, 310598401, 607225278, 1426881987,
   1925078388, 2162078206, 2614888103, 3248222580,
   3835390401, 4022224774, 264347078, 604807628,
   770255983, 1249150122, 1555081692, 1996064986,
   2554220882, 2821834349, 2952996808, 3210313671,
   3336571891, 3584528711, 113926993, 338241895,
   666307205, 773529912, 1294757372, 1396182291,
   1695183700, 1986661051, 2177026350, 2456956037,
   2730485921, 2820302411, 3259730800, 3345764771,
   3516065817, 3600352804, 4094571909, 275423344,
   430227734, 506948616, 659060556, 883997877,
   958139571, 1322822218, 1537002063, 1747873779,
   1955562222, 2024104815, 2227730452, 2361852424,
   2428436474, 2756734187, 3204031479, 3329325298]

/-- SHA-256 initial state. -/
def shaH0 : List Nat :=
  [1779033703, 3144134277, 1013904242, 2773480762,
   1359893119, 2600822924, 528734635, 1541459225]

/-- SHA-256 padding: append `0x80`, zero bytes, then the 64-bit bit length. -/
def shaPad (msg : List Nat) : List Nat :=
  let L := msg.length
  let k := (64 + 56 - (L + 1) % 64) % 64
  msg ++ [128] ++ List.replicate k 0 ++ u64be (8 * L)

/-- Split a byte list into 64-byte chunks.  The recursion is driven by a
fuel argument bounded by the list length (each step consumes at least one
element) so that the definition reduces inside the kernel. -/
def chunks64Go : Nat → List Nat → List (List Nat)
  | 0, _ => []
  | _, [] => []
  | fuel + 1, l => l.take 64 :: chunks64Go fuel (l.drop 64)

/-- Split a byte list into 64-byte chunks. -/
def chunks64 (l : List Nat) : List (List Nat) :=
  chunks64Go l.length l

/-- Big-endian 32-bit words from bytes. -/
def toWords : List Nat → List Nat
  | b0 :: b1 :: b2 :: b3 :: rest => (((b0 * 256 + b1) * 256 + b2) * 256 + b3) :: toWords rest
  | _ => []

/-- Extend 16 schedule words (reversed accumulator) by `n` more. -/
def schedGo : Nat → List Nat → List Nat
  | 0, acc => acc.reverse
  | n + 1, acc =>
    let w := (sSig1 (acc.getD 1 0) + acc.getD 6 0 + sSig0 (acc.getD 14 0)
              + acc.getD 15 0) % 4294967296
    schedGo n (w :: acc)

/-- The 64-entry message schedule of one block. -/
def schedule (w16 : List Nat) : List Nat :=
  schedGo 48 w16.reverse

/-- One SHA-256 round on the 8-word state. -/
def shaRound (st : List Nat) (wk : Nat × Nat) : List Nat :=
  match st with
  | [a, b, c, d, e, f, g, h] =>
    let ch := (e &&& f) ^^^ ((e ^^^ 4294967295) &&& g)
    let maj := (a &&& b) ^^^ (a &&& c) ^^^ (b &&& c)
    let t1 := (h + bSig1 e + ch + wk.2 + wk.1) % 4294967296
    let t2 := (bSig0 a + maj) % 4294967296
    [(t1 + t2) % 4294967296, a, b, c, (d + t1) % 4294967296, e, f, g]
  | other => other

/-- Compress one 64-byte chunk into the state. -/
def shaCompress (st : List Nat) (chunk : List Nat) : List Nat :=
  let ws := schedule (toWords chunk)
  let st' := (ws.zip shaK).foldl shaRound st
  List.zipWith (fun x y => (x + y) % 4294967296) st st'

/-- 32-bit words back to big-endian bytes. -/
def wordsToBytes (ws : List Nat) : List Nat :=
  (ws.map (fun w => [w / 16777216 % 256, w / 65536 % 256, w / 256 % 256, w % 256])).flatten

/-- SHA-256 of a byte list, as the `sha2` crate computes it. -/
def sha256 (msg : List Nat) : List Nat :=
  wordsToBytes ((chunks64 (shaPad msg)).foldl shaCompress shaH0)

/-! # RFC 3339 rendering of whole-second UTC timestamps

`chrono`'s serde support serializes a `DateTime<Utc>` as its RFC 3339 string
(`collect_str` of the Debug rendering, e.g. `2024-01-01T00:00:00Z`).  The
model restricts timestamps to whole seconds (`Int` Unix seconds), which is
the only form the development instantiates. -/

/-- Two-digit zero-padded decimal. -/
def pad2 (n : Nat) : String :=
  if n < 10 then "0" ++ toString n else toString n

/-- Four-digit zero-padded decimal (years 0–9999). -/
def pad4 (n : Nat) : String :=
  if n < 10 then "000" ++ toString n
  else if n < 100 then "00" ++ toString n
  else if n < 1000 then "0" ++ toString n
  else toString n

/-- Civil date from a day count since 1970-01-01 (Howard Hinnant's algorithm,
with C-style truncating division mirrored by `Int.tdiv`). -/
def civilFromDays (days : Int) : Nat × Nat × Nat :=
  let z := days + 719468
  let era := Int.tdiv (if 0 ≤ z then z else z - 146096) 146097
  let doe := (z - era * 146097).toNat
  let yoe := (doe - doe / 1460 + doe / 36524 - doe / 146096) / 365
  let doy := doe - (365 * yoe + yoe / 4 - yoe / 100)
  let mp := (5 * doy + 2) / 153
  let d := doy - (153 * mp + 2) / 5 + 1
  let m := if mp < 10 then mp + 3 else mp - 9
  let y := era * 400 + yoe + (if m ≤ 2 then 1 else 0)
  (y.toNat, m, d)

/-- RFC 3339 string of a whole-second UTC timestamp. -/
def rfc3339 (t : Int) : String :=
  let days := Int.fdiv t 86400
  let secs := (Int.emod t 86400).toNat
  let ymd := civilFromDays days
  pad4 ymd.1 ++ "-" ++ pad2 ymd.2.1 ++ "-" ++ pad2 ymd.2.2 ++ "T" ++
    pad2 (secs / 3600) ++ ":" ++ pad2 (secs % 3600 / 60) ++ ":" ++
    pad2 (secs % 60) ++ "Z"

/-! # bincode primitive encoders

`bincode::serialize` (the legacy top-level function) uses fixed-width
little-endian integers, `u64` length prefixes for sequences and strings, a
one-byte `0`/`1` tag for `Option`, a `u32` variant index for enums, raw
elements for fixed arrays, and one byte for `bool`. -/

/-- bincode `Option<T>`. -/
def encOption (enc : α → List Nat) : Option α → List Nat
  | none => [0]
  | some v => 1 :: enc v

/-- bincode `Vec<u8>` / `&[u8]` / `String` payloads: length then bytes. -/
def encBytes (b : List Nat) : List Nat :=
  u64le b.length ++ b

/-- bincode `String`. -/
def encString (s : String) : List Nat :=
  encBytes (utf8 s)

/-- bincode `Vec<T>`. -/
def encVec (enc : α → List Nat) (l : List α) : List Nat :=
  u64le l.length ++ (l.map enc).flatten

/-- bincode of a chrono `DateTime<Utc>` (an RFC 3339 string). -/
def encDateTime (t : Int) : List Nat :=
  encString (rfc3339 t)

/-! # ledgerdb data model (`rust-04/ledgerdb`) -/

/-- A 256-bit hash: 32 bytes. -/
abbrev Hash256 := List Nat

/-- The all-zero hash (`Hash256::zero`). -/
def zeroHash : Hash256 := List.replicate 32 0

/-- An address is the 32-byte hash derived from a public key; the model
carries the bytes directly. -/
abbrev Address := List Nat

/-- `crypto::Signature`: algorithm (bincode enum variant index) and bytes. -/
structure Signature where
  algorithm : Nat
  data : List Nat
deriving DecidableEq, Repr

/-- `crypto::PublicKey`: algorithm (bincode enum variant index) and bytes. -/
structure PublicKey where
  algorithm : Nat
  data : List Nat
deriving DecidableEq, Repr

/-- `hash_data`: SHA-256 of arbitrary data. -/
def hash_data (d : List Nat) : Hash256 := sha256 d

/-- `hash_multiple`: SHA-256 over the concatenation of the pieces. -/
def hash_multiple (pieces : List (List Nat)) : Hash256 := sha256 pieces.flatten

/-- `core::TransactionInput`. -/
structure TransactionInput where
  previous_tx_hash : Hash256
  output_index : Nat
  signature : Option Signature
  public_key : Option PublicKey
  sequence : Nat
deriving DecidableEq, Repr

/-- `core::TransactionOutput`. -/
structure TransactionOutput where
  amount : Nat
  recipient : Address
  script : Option (List Nat)
  spent : Bool
  created_at_height : Option Nat
deriving DecidableEq, Repr

/-- `core::TransactionFee`.  `priority_multiplier: f64` is never computed
with in the embedded paths, only serialized; the model carries its IEEE-754
bit pattern. -/
structure TransactionFee where
  base_fee : Nat
  per_byte_fee : Nat
  priority_multiplier_bits : Nat
deriving DecidableEq, Repr

/-- Bit pattern of `1.0f64`, the only multiplier value the embedded code
constructs. -/
def oneF64 : Nat := 0x3FF0000000000000

/-- `TransactionFee::default()`. -/
def defaultFee : TransactionFee :=
  { base_fee := 1000, per_byte_fee := 10, priority_multiplier_bits := oneF64 }

/-- `core::Transaction`.  Timestamps are whole-second UTC instants. -/
structure Transaction where
  id : String
  version : Nat
  inputs : List TransactionInput
  outputs : List TransactionOutput
  fee : TransactionFee
  lock_time : Nat
  timestamp : Int
  data : Option (List Nat)
  size : Option Nat
deriving DecidableEq, Repr

instance : Inhabited Transaction :=
  ⟨{ id := "", version := 0, inputs := [], outputs := [],
     fee := { base_fee := 0, per_byte_fee := 0, priority_multiplier_bits := 0 },
     lock_time := 0, timestamp := 0, data := none, size := none }⟩

/-- bincode of `crypto::Signature`. -/
def encSignature (s : Signature) : List Nat :=
  u32le s.algorithm ++ encBytes s.data

/-- bincode of `crypto::PublicKey`. -/
def encPublicKey (p : PublicKey) : List Nat :=
  u32le p.algorithm ++ encBytes p.data

/-- bincode of `TransactionInput`. -/
def encInput (i : TransactionInput) : List Nat :=
  i.previous_tx_hash ++ u32le i.output_index ++ encOption encSignature i.signature
    ++ encOption encPublicKey i.public_key ++ u32le i.sequence

/-- bincode of `TransactionOutput`. -/
def encOutput (o : TransactionOutput) : List Nat :=
  u64le o.amount ++ o.recipient ++ encOption encBytes o.script
    ++ [if o.spent then 1 else 0] ++ encOption u64le o.created_at_height

/-- bincode of `TransactionFee`. -/
def encFee (f : TransactionFee) : List Nat :=
  u64le f.base_fee ++ u64le f.per_byte_fee ++ u64le f.priority_multiplier_bits

/-- bincode of `Transaction` (field order as declared in the Rust struct). -/
def encTransaction (t : Transaction) : List Nat :=
  encString t.id ++ u32le t.version ++ encVec encInput t.inputs
    ++ encVec encOutput t.outputs ++ encFee t.fee ++ u64le t.lock_time
    ++ encDateTime t.timestamp ++ encOption encBytes t.data
    ++ encOption u64le t.size

/-- `TransactionInput::coinbase(block_height)`. -/
def TransactionInput.coinbase (block_height : Nat) : TransactionInput :=
  { previous_tx_hash := zeroHash, output_index := 4294967295,
    signature := none, public_key := none, sequence := block_height % 4294967296 }

/-- `TransactionInput::is_coinbase`. -/
def TransactionInput.is_coinbase (i : TransactionInput) : Bool :=
  i.previous_tx_hash == zeroHash && i.output_index == 4294967295

/-- An input with its signature field cleared (the hashing discipline). -/
def clearInputSig (i : TransactionInput) : TransactionInput :=
  { i with signature := none }

/-- `Transaction::hash`: SHA-256 of the bincode encoding with all input
signatures cleared. -/
def Transaction.hash (t : Transaction) : Hash256 :=
  hash_data (encTransaction { t with inputs := t.inputs.map clearInputSig })

/-- `Transaction::is_coinbase`. -/
def Transaction.is_coinbase (t : Transaction) : Bool :=
  t.inputs.length == 1 && (t.inputs.headD (TransactionInput.coinbase 0)).is_coinbase

/-- `Transaction::total_output_amount`. -/
def Transaction.total_output_amount (t : Transaction) : Nat :=
  (t.outputs.map (·.amount)).sum

/-- `TransactionOutput::is_spendable`. -/
def TransactionOutput.is_spendable (o : TransactionOutput) : Bool := !o.spent

/-- `Transaction::coinbase(recipient, amount, block_height)` created at
whole-second instant `now`; `size` is the length of the bincode encoding
taken while `size` is still `None` (as `calculate_size` runs on `Self`). -/
def Transaction.coinbase (recipient : Address) (amount : Nat) (block_height : Nat)
    (now : Int) : Transaction :=
  let t : Transaction :=
    { id := "coinbase_" ++ toString block_height, version := 1,
      inputs := [TransactionInput.coinbase block_height],
      outputs := [{ amount := amount, recipient := recipient, script := none,
                    spent := false, created_at_height := none }],
      fee := { base_fee := 0, per_byte_fee := 0, priority_multiplier_bits := oneF64 },
      lock_time := 0, timestamp := now,
      data := some (utf8 ("Block " ++ toString block_height ++ " mining reward")),
      size := none }
  { t with size := some (encTransaction t).length }

/-! # Errors

The Rust error enums carry formatted message payloads; the model keeps the
constructor distinctions and drops the message strings. -/

/-- `error::ValidationError` (and the mining/blockchain errors the embedded
paths can produce), message payloads elided. -/
inductive ValidationError where
  | invalidVersion
  | invalidDifficulty
  | invalidTimestamp
  | invalidBlockIndex
  | invalidPreviousHash
  | emptyBlock
  | missingCoinbase
  | multipleCoinbase
  | emptyInputs
  | emptyOutputs
  | missingSignature
  | missingPublicKey
  | invalidAmount
  | invalidCoinbase
  | outputAlreadySpent
  | outputNotFound
  | arithmeticOverflow
  | insufficientFunds
  | invalidMerkleRoot
  | invalidProofOfWork
  | invalidTransactionCount
  | utxoNotFound
  | miningTimeout
  | invalidGenesisBlock
  | invalidLeafIndex
deriving DecidableEq, Repr

/-! # Transaction validation -/

/-- Lookup in a `HashMap<String, T>` modeled as an association list. -/
def lookupMap (m : List (String × α)) (k : String) : Option α :=
  (m.find? (fun p => p.1 == k)).map (·.2)

/-- The `format!("{}:{}", hash, index)` UTXO key: lowercase hex of the hash,
a colon, and the decimal output index. -/
def utxoKey (h : Hash256) (idx : Nat) : String :=
  hexEncode h ++ ":" ++ toString idx

/-- `TransactionInput::validate`. -/
def TransactionInput.validate (i : TransactionInput) : Except ValidationError Unit :=
  if !i.is_coinbase then
    if i.signature.isNone then .error .missingSignature
    else if i.public_key.isNone then .error .missingPublicKey
    else .ok ()
  else .ok ()

/-- `TransactionOutput::validate`. -/
def TransactionOutput.validate (o : TransactionOutput) : Except ValidationError Unit :=
  if o.amount == 0 then .error .invalidAmount else .ok ()

/-- Validate every input in order (the first `for` loop of
`Transaction::validate`). -/
def validateInputs : List TransactionInput → Except ValidationError Unit
  | [] => .ok ()
  | i :: rest =>
    match i.validate with
    | .error e => .error e
    | .ok () => validateInputs rest

/-- Validate every output in order. -/
def validateOutputs : List TransactionOutput → Except ValidationError Unit
  | [] => .ok ()
  | o :: rest =>
    match o.validate with
    | .error e => .error e
    | .ok () => validateOutputs rest

/-- The input-amount accumulation loop of `Transaction::validate`:
look each input up in the UTXO map, reject spent or missing outputs, and add
amounts with a `u64` `checked_add`. -/
def inputSum (utxo : List (String × TransactionOutput)) :
    List TransactionInput → Nat → Except ValidationError Nat
  | [], acc => .ok acc
  | i :: rest, acc =>
    match lookupMap utxo (utxoKey i.previous_tx_hash i.output_index) with
    | some o =>
      if !o.is_spendable then .error .outputAlreadySpent
      else if acc + o.amount ≥ 18446744073709551616 then .error .arithmeticOverflow
      else inputSum utxo rest (acc + o.amount)
    | none => .error .outputNotFound

/-- `Transaction::validate` against a UTXO map keyed by `utxoKey` strings. -/
def Transaction.validate (t : Transaction) (utxo : List (String × TransactionOutput)) :
    Except ValidationError Unit :=
  if t.inputs.isEmpty then .error .emptyInputs
  else if t.outputs.isEmpty then .error .emptyOutputs
  else match validateInputs t.inputs with
  | .error e => .error e
  | .ok () =>
    match validateOutputs t.outputs with
    | .error e => .error e
    | .ok () =>
      if t.is_coinbase then
        if t.inputs.length != 1 then .error .invalidCoinbase else .ok ()
      else
        match inputSum utxo t.inputs 0 with
        | .error e => .error e
        | .ok total =>
          if total < t.total_output_amount then .error .insufficientFunds
          else .ok ()

/-! # Proof of work (`crypto::pow`) -/

/-- `calculate_target`: start from 32 `0xFF` bytes, zero the leading whole
bytes, and mask the boundary byte. -/
def calculate_target (difficulty : Nat) : Hash256 :=
  let zero_bytes := difficulty / 8
  let remaining_bits := difficulty % 8
  let t := List.replicate 32 255
  let t := (List.range zero_bytes).foldl (fun tb i => if i < 32 then tb.set i 0 else tb) t
  if zero_bytes < 32 ∧ remaining_bits > 0 then t.set zero_bytes (255 >>> remaining_bits)
  else t

/-- Rust's `Ord` on `&[u8]`: elementwise lexicographic comparison, shorter
prefix first. -/
def sliceCmp : List Nat → List Nat → Ordering
  | [], [] => .eq
  | [], _ :: _ => .lt
  | _ :: _, [] => .gt
  | a :: as, b :: bs => if a < b then .lt else if b < a then .gt else sliceCmp as bs

/-- `hash_meets_target`: `hash.as_slice() <= target.as_slice()`. -/
def hash_meets_target (h t : Hash256) : Bool :=
  match sliceCmp h t with
  | .gt => false
  | _ => true

/-- `hash_with_nonce`: SHA-256 of the data followed by the nonce's
little-endian bytes. -/
def hash_with_nonce (block_data : List Nat) (nonce : Nat) : Hash256 :=
  hash_multiple [block_data, u64le nonce]

/-- `validate_proof_of_work`. -/
def validate_proof_of_work (block_data : List Nat) (nonce difficulty : Nat) : Bool :=
  hash_meets_target (hash_with_nonce block_data nonce) (calculate_target difficulty)

/-! # Block headers and blocks -/

/-- `core::BlockHeader`. -/
structure BlockHeader where
  version : Nat
  previous_hash : Hash256
  merkle_root : Hash256
  timestamp : Int
  difficulty : Nat
  nonce : Nat
  transaction_count : Nat
  size : Nat
  metadata_hash : Option Hash256
deriving DecidableEq, Repr

/-- bincode of `BlockHeader` (field order as declared). -/
def encHeader (h : BlockHeader) : List Nat :=
  u32le h.version ++ h.previous_hash ++ h.merkle_root ++ encDateTime h.timestamp
    ++ u32le h.difficulty ++ u64le h.nonce ++ u32le h.transaction_count
    ++ u64le h.size ++ encOption (fun x => x) h.metadata_hash

/-- `BlockHeader::hash`: SHA-256 of the header's bincode encoding. -/
def BlockHeader.hash (h : BlockHeader) : Hash256 :=
  hash_data (encHeader h)

/-- `BlockHeader::validate` at wall-clock instant `now`. -/
def BlockHeader.validate (h : BlockHeader) (now : Int) : Except ValidationError Unit :=
  if h.version == 0 then .error .invalidVersion
  else if h.difficulty == 0 then .error .invalidDifficulty
  else if h.timestamp > now + 7200 then .error .invalidTimestamp
  else .ok ()

/-- `BlockHeader::meets_difficulty_target`: note the PoW hash is taken over
the header's encoding with the nonce's little-endian bytes appended again. -/
def BlockHeader.meets_difficulty_target (h : BlockHeader) : Bool :=
  validate_proof_of_work (encHeader h) h.nonce h.difficulty

/-- `core::BlockMetadata`. -/
structure BlockMetadata where
  proposer : Option String
  gas_limit : Option Nat
  gas_used : Option Nat
  block_reward : Nat
  total_fees : Nat
  average_fee : Nat
  processing_time_ms : Option Nat
  extra_data : Option (List Nat)
deriving DecidableEq, Repr

/-- `BlockMetadata::default()`. -/
def defaultMetadata : BlockMetadata :=
  { proposer := none, gas_limit := some 21000000, gas_used := some 0,
    block_reward := 5000000000, total_fees := 0, average_fee := 0,
    processing_time_ms := none, extra_data := none }

/-- bincode of `BlockMetadata`. -/
def encMetadata (m : BlockMetadata) : List Nat :=
  encOption encString m.proposer ++ encOption u64le m.gas_limit
    ++ encOption u64le m.gas_used ++ u64le m.block_reward ++ u64le m.total_fees
    ++ u64le m.average_fee ++ encOption u64le m.processing_time_ms
    ++ encOption encBytes m.extra_data

/-- `core::Block`.  The serde-skipped `cached_hash` cache is not modeled;
`Block::hash` is the header hash. -/
structure Block where
  header : BlockHeader
  transactions : List Transaction
  metadata : BlockMetadata
  index : Nat
deriving DecidableEq, Repr

/-- bincode of `Block` (`cached_hash` is `#[serde(skip)]`). -/
def encBlock (b : Block) : List Nat :=
  encHeader b.header ++ encVec encTransaction b.transactions
    ++ encMetadata b.metadata ++ u64le b.index

/-- `Block::hash`. -/
def Block.hash (b : Block) : Hash256 := b.header.hash

/-! # Merkle tree (`crypto::merkle`) -/

/-- `MerkleNode::internal`'s combining hash: SHA-256 of left ‖ right. -/
def combine (a b : Hash256) : Hash256 := hash_multiple [a, b]

/-- One bottom-up level: `chunks(2)`, hashing a lone last element with
itself. -/
def nextLevel : List Hash256 → List Hash256
  | [] => []
  | [x] => [combine x x]
  | x :: y :: rest => combine x y :: nextLevel rest

/-- Each level halves the node count, rounding up. -/
theorem nextLevel_length : ∀ l : List Hash256, (nextLevel l).length = (l.length + 1) / 2
  | [] => by simp [nextLevel]
  | [_] => by simp [nextLevel]
  | _ :: _ :: rest => by
    simp only [nextLevel, List.length_cons, nextLevel_length rest]
    omega

/-- The level-folding loop of `MerkleTree::from_hashes`, fueled: each pass
strictly shrinks a two-or-more-element level, so any fuel at least the
level length reaches the root.  (`from_hashes` rejects the empty list; the
`[]` branch is a default for totality.) -/
def rootGo : Nat → List Hash256 → Hash256
  | 0, l => l.headD zeroHash
  | fuel + 1, l =>
    match l with
    | [] => zeroHash
    | [x] => x
    | x :: y :: rest => rootGo fuel (nextLevel (x :: y :: rest))

/-- The root of `MerkleTree::from_hashes`: fold levels until one node
remains. -/
def rootFromLevel (l : List Hash256) : Hash256 :=
  rootGo l.length l

/-- `crypto::MerkleProof`. -/
structure MerkleProof where
  leaf_hash : Hash256
  leaf_index : Nat
  proof_hashes : List Hash256
  proof_directions : List Bool
  root_hash : Hash256
deriving DecidableEq, Repr

/-- The sibling/direction collection loop of `generate_proof_by_index`,
one entry per level while the level has more than one node; fueled like
`rootGo`. -/
def proofStepsGo : Nat → List Hash256 → Nat → List (Hash256 × Bool)
  | 0, _, _ => []
  | fuel + 1, level, i =>
    match level with
    | [] => []
    | [_] => []
    | x :: y :: rest =>
      let level := x :: y :: rest
      let sib :=
        if i % 2 == 0 then
          if i + 1 < level.length then level.getD (i + 1) zeroHash
          else level.getD i zeroHash
        else level.getD (i - 1) zeroHash
      (sib, i % 2 == 0) :: proofStepsGo fuel (nextLevel level) (i / 2)

/-- The sibling/direction list for a leaf index. -/
def proofSteps (level : List Hash256) (i : Nat) : List (Hash256 × Bool) :=
  proofStepsGo level.length level i

/-- `MerkleTree::generate_proof_by_index` over the leaf list (the tree's
stored `leaves`); errors when the index is out of range. -/
def generate_proof_by_index (leaves : List Hash256) (leaf_index : Nat) :
    Except ValidationError MerkleProof :=
  if leaf_index ≥ leaves.length then .error .invalidLeafIndex
  else
    .ok { leaf_hash := leaves.getD leaf_index zeroHash,
          leaf_index := leaf_index,
          proof_hashes := (proofSteps leaves leaf_index).map (·.1),
          proof_directions := (proofSteps leaves leaf_index).map (·.2),
          root_hash := rootFromLevel leaves }

/-- The replay fold of `MerkleProof::verify`. -/
def verifyFold (leaf : Hash256) : List (Hash256 × Bool) → Hash256
  | [] => leaf
  | (sib, isLeft) :: rest =>
    verifyFold (if isLeft then combine leaf sib else combine sib leaf) rest

/-- `MerkleProof::verify` against an expected root. -/
def MerkleProof.verify (p : MerkleProof) (expected_root : Hash256) : Bool :=
  if p.root_hash != expected_root then false
  else verifyFold p.leaf_hash (p.proof_hashes.zip p.proof_directions) == expected_root

/-- `MerkleTree::from_transactions` root (`none` models the
`EmptyMerkleTree` error). -/
def merkleRootOfTxs (txs : List Transaction) : Option Hash256 :=
  if txs.isEmpty then none
  else some (rootFromLevel (txs.map Transaction.hash))

/-! # Block validation -/

/-- `Block::verify_merkle_root` (`false` when the tree cannot be built). -/
def Block.verify_merkle_root (b : Block) : Bool :=
  match merkleRootOfTxs b.transactions with
  | some r => r == b.header.merkle_root
  | none => false

/-- The per-transaction loop of `Block::validate`: the position-0 coinbase
rules, then `Transaction::validate` for each transaction in order. -/
def validateTxs (blockIndex : Nat) (utxo : List (String × TransactionOutput)) :
    Nat → List Transaction → Except ValidationError Unit
  | _, [] => .ok ()
  | i, tx :: rest =>
    let coinbaseCheck : Except ValidationError Unit :=
      if i == 0 ∧ blockIndex > 0 then
        if !tx.is_coinbase then .error .missingCoinbase else .ok ()
      else if tx.is_coinbase then .error .multipleCoinbase
      else .ok ()
    match coinbaseCheck with
    | .error e => .error e
    | .ok () =>
      match tx.validate utxo with
      | .error e => .error e
      | .ok () => validateTxs blockIndex utxo (i + 1) rest

/-- `Block::validate` against an optional previous block, a UTXO map, and
the wall-clock instant `now` (Rust reads `Utc::now()` inside
`BlockHeader::validate`). -/
def Block.validate (b : Block) (previous_block : Option Block)
    (utxo : List (String × TransactionOutput)) (now : Int) :
    Except ValidationError Unit :=
  match b.header.validate now with
  | .error e => .error e
  | .ok () =>
    let indexCheck : Except ValidationError Unit :=
      match previous_block with
      | some prev =>
        if b.index != prev.index + 1 then .error .invalidBlockIndex
        else if b.header.previous_hash != prev.hash then .error .invalidPreviousHash
        else if b.header.timestamp ≤ prev.header.timestamp then .error .invalidTimestamp
        else .ok ()
      | none =>
        if b.index != 0 then .error .invalidBlockIndex else .ok ()
    match indexCheck with
    | .error e => .error e
    | .ok () =>
      if b.transactions.isEmpty then .error .emptyBlock
      else if b.index > 0 ∧ !(b.transactions.headD default).is_coinbase then
        .error .missingCoinbase
      else
        match validateTxs b.index utxo 0 b.transactions with
        | .error e => .error e
        | .ok () =>
          if !b.verify_merkle_root then .error .invalidMerkleRoot
          else if !b.header.meets_difficulty_target then .error .invalidProofOfWork
          else if b.header.transaction_count != b.transactions.length % 4294967296 then
            .error .invalidTransactionCount
          else .ok ()

/-- `Block::new`: build the header from the transactions, then set
`header.size` to the length of the block's encoding taken with `size = 0`
(mirroring `calculate_size`). -/
def Block.newBlock (index : Nat) (previous_hash : Hash256) (txs : List Transaction)
    (difficulty : Nat) (now : Int) : Block :=
  let merkle_root := (merkleRootOfTxs txs).getD zeroHash
  let header : BlockHeader :=
    { version := 1, previous_hash := previous_hash, merkle_root := merkle_root,
      timestamp := now, difficulty := difficulty,
      nonce := 0, transaction_count := txs.length % 4294967296, size := 0,
      metadata_hash := none }
  let total_fees := (txs.map (·.fee.base_fee)).sum
  let metadata : BlockMetadata :=
    { defaultMetadata with
      total_fees := total_fees,
      average_fee := if txs.isEmpty then defaultMetadata.average_fee
        else total_fees / txs.length }
  let b : Block := { header := header, transactions := txs, metadata := metadata,
                     index := index }
  { b with header := { header with size := (encBlock b).length } }

/-- `Block::genesis`: a height-0 block holding one coinbase paying the
initial supply, with the header timestamp pinned to 2024-01-01T00:00:00Z
and genesis metadata; `now` is the wall-clock instant of construction
(which stamps the coinbase transaction). -/
def Block.genesis (genesis_address : Address) (initial_supply : Nat) (now : Int) : Block :=
  let gtx := Transaction.coinbase genesis_address initial_supply 0 now
  let b := Block.newBlock 0 zeroHash [gtx] 1 now
  { b with
    header := { b.header with timestamp := 1704067200 },
    metadata := { b.metadata with
                  proposer := some "genesis",
                  extra_data := some (utf8 "LedgerDB Genesis Block") } }

/-- `Block::is_genesis`. -/
def Block.is_genesis (b : Block) : Bool :=
  b.index == 0 && b.header.previous_hash == zeroHash

/-- The nonce-search loop of `Block::mine`: try the current nonce, wrap-add
one, and give up with `MiningTimeout` once the attempt bound is spent.  The
fuel counts the checks remaining; Rust performs 10,000,001 checks before
erroring (`attempts > 10_000_000` is tested after incrementing). -/
def mineGo : Nat → BlockHeader → Except ValidationError BlockHeader
  | 0, _ => .error .miningTimeout
  | fuel + 1, h =>
    if h.meets_difficulty_target then .ok h
    else mineGo fuel { h with nonce := (h.nonce + 1) % 18446744073709551616 }

/-- `Block::mine` (the progress callback is pure I/O and unmodeled). -/
def Block.mine (b : Block) : Except ValidationError Block :=
  (mineGo 10000001 b.header).map (fun h => { b with header := h })

/-! # Blockchain state (`core::blockchain`) -/

/-- `BlockchainConfig`. -/
structure BlockchainConfig where
  target_block_time : Nat
  difficulty_adjustment_interval : Nat
  max_block_size : Nat
  block_reward : Nat
  halving_interval : Nat
  max_transactions_per_block : Nat
  min_transaction_fee : Nat
  genesis_timestamp : Int
  initial_difficulty : Nat
deriving DecidableEq, Repr

/-- `BlockchainConfig::default()`. -/
def defaultConfig : BlockchainConfig :=
  { target_block_time := 600, difficulty_adjustment_interval := 2016,
    max_block_size := 1000000, block_reward := 5000000000,
    halving_interval := 210000, max_transactions_per_block := 1000,
    min_transaction_fee := 1000, genesis_timestamp := 1704067200,
    initial_difficulty := 1 }

/-- `blockchain::UtxoId`. -/
structure UtxoId where
  tx_hash : Hash256
  output_index : Nat
deriving DecidableEq, Repr

instance : BEq UtxoId := ⟨fun a b => decide (a = b)⟩

/-- `UtxoId::to_string`. -/
def UtxoId.toStr (u : UtxoId) : String :=
  utxoKey u.tx_hash u.output_index

/-- `blockchain::UtxoEntry`. -/
structure UtxoEntry where
  output : TransactionOutput
  block_height : Nat
  tx_hash : Hash256
  output_index : Nat
  is_spent : Bool
  spent_at_height : Option Nat
deriving DecidableEq, Repr

/-- `UtxoEntry::new`. -/
def UtxoEntry.new (output : TransactionOutput) (block_height : Nat)
    (tx_hash : Hash256) (output_index : Nat) : UtxoEntry :=
  { output := output, block_height := block_height, tx_hash := tx_hash,
    output_index := output_index, is_spent := false, spent_at_height := none }

/-- `HashMap` insert modeled on association lists (replace any existing
binding). -/
def mapInsert [BEq κ] (m : List (κ × α)) (k : κ) (v : α) : List (κ × α) :=
  (k, v) :: m.filter (fun p => !(p.1 == k))

/-- `HashMap` remove modeled on association lists. -/
def mapRemove [BEq κ] (m : List (κ × α)) (k : κ) : List (κ × α) :=
  m.filter (fun p => !(p.1 == k))

/-- `HashMap` get modeled on association lists. -/
def mapGet [BEq κ] (m : List (κ × α)) (k : κ) : Option α :=
  (m.find? (fun p => p.1 == k)).map (·.2)

/-- The in-memory chain state.  Statistics, the orphan pool, recent block
times and the storage handle are not observed by any embedded claim and are
omitted from the state. -/
structure Blockchain where
  config : BlockchainConfig
  blocks : List Block
  utxo_set : List (UtxoId × UtxoEntry)
  transaction_pool : List (Hash256 × Transaction)
  block_index : List (Hash256 × Nat)
deriving DecidableEq, Repr

/-- The `utxo_map` conversion both `validate_block` and `verify_chain`
perform: stringified UTXO ids mapped to their outputs. -/
def Blockchain.utxoMap (st : Blockchain) : List (String × TransactionOutput) :=
  st.utxo_set.map (fun p => (p.1.toStr, p.2.output))

/-- `Blockchain::get_block_by_index`. -/
def Blockchain.get_block_by_index (st : Blockchain) (i : Nat) : Option Block :=
  st.blocks.get? i

/-- `Blockchain::get_latest_block`. -/
def Blockchain.get_latest_block (st : Blockchain) : Option Block :=
  st.blocks.getLast?

/-- The spent-input removal loop of `apply_block_to_utxo_set` for one
transaction; on a missing UTXO it stops with the error, keeping the
removals already performed. -/
def applyTxInputs (m : List (UtxoId × UtxoEntry)) :
    List TransactionInput → List (UtxoId × UtxoEntry) × Option ValidationError
  | [] => (m, none)
  | i :: rest =>
    if !i.is_coinbase then
      let uid : UtxoId := { tx_hash := i.previous_tx_hash, output_index := i.output_index }
      match mapGet m uid with
      | some _ => applyTxInputs (mapRemove m uid) rest
      | none => (m, some .utxoNotFound)
    else applyTxInputs m rest

/-- The output insertion loop of `apply_block_to_utxo_set` for one
transaction. -/
def applyTxOutputs (m : List (UtxoId × UtxoEntry)) (height : Nat) (txh : Hash256) :
    Nat → List TransactionOutput → List (UtxoId × UtxoEntry)
  | _, [] => m
  | idx, o :: rest =>
    let uid : UtxoId := { tx_hash := txh, output_index := idx % 4294967296 }
    applyTxOutputs (mapInsert m uid (UtxoEntry.new o height txh (idx % 4294967296)))
      height txh (idx + 1) rest

/-- `Blockchain::apply_block_to_utxo_set`, returning the (possibly
partially mutated) UTXO set together with the error, if any. -/
def apply_block_to_utxo_set (m : List (UtxoId × UtxoEntry)) (b : Block) :
    List (UtxoId × UtxoEntry) × Option ValidationError :=
  go m b.transactions
where
  go (m : List (UtxoId × UtxoEntry)) :
      List Transaction → List (UtxoId × UtxoEntry) × Option ValidationError
  | [] => (m, none)
  | tx :: rest =>
    match applyTxInputs m tx.inputs with
    | (m', some e) => (m', some e)
    | (m', none) => go (applyTxOutputs m' b.index tx.hash 0 tx.outputs) rest

/-- Round half away from zero, as `f64::round`. -/
def roundHalfAway (q : ℚ) : Int :=
  if 0 ≤ q then ⌊q + 1 / 2⌋ else -⌊-q + 1 / 2⌋

/-- Rust's saturating `as u32` cast applied to an integral value. -/
def asU32 (r : Int) : Nat :=
  if r < 0 then 0 else if r > 4294967295 then 4294967295 else r.toNat

/-- Fuel-driven binary logarithm: once `n ≤ fuel`, `log2Go fuel n = ⌊log₂ n⌋`. -/
def log2Go : Nat → Nat → Nat
  | 0, _ => 0
  | fuel + 1, n => if 2 ≤ n then log2Go fuel (n / 2) + 1 else 0

/-- `⌊log₂ n⌋` for positive `n` (0 at 0). -/
def nlog2 (n : Nat) : Nat := log2Go n n

/-- Round to the nearest integer, ties to even (IEEE mantissa rounding). -/
def rne (q : ℚ) : Int :=
  if q - ⌊q⌋ < 1 / 2 then ⌊q⌋
  else if 1 / 2 < q - ⌊q⌋ then ⌊q⌋ + 1
  else if ⌊q⌋ % 2 = 0 then ⌊q⌋ else ⌊q⌋ + 1

/-- The power-of-two scale that brings the positive rational `n / d` into
the binary64 mantissa range `[2^52, 2^53)`: `2 ^ (52 - ⌊log₂ (n/d)⌋)`. -/
def flScale (n d : Nat) : ℚ :=
  if d ≤ n then
    let e := nlog2 (n / d)
    if e ≤ 52 then ((2 ^ (52 - e) : Nat) : ℚ)
    else ((2 ^ (e - 52) : Nat) : ℚ)⁻¹
  else
    let s0 := nlog2 (d / n)
    let s := if d ≤ n * 2 ^ s0 then s0 else s0 + 1
    ((2 ^ (52 + s) : Nat) : ℚ)

/-- Round a rational to the nearest IEEE-754 binary64 value (round to
nearest, ties to even), expressed over `ℚ`.  Faithful on the whole normal
range of `f64`; the intermediate values of the difficulty computation
(integers below `2^64` in magnitude, their quotients, and quotients of a
`u32` by a factor in `[1/4, 4]`) never leave it, so neither overflow to
infinity nor subnormal flushing needs to be modeled. -/
def flRound (q : ℚ) : ℚ :=
  if q = 0 then 0
  else
    let sc := flScale q.num.natAbs q.den
    if q < 0 then -((rne (-q * sc) : ℚ) / sc) else ((rne (q * sc) : ℚ) / sc)

instance : Inhabited Block :=
  ⟨{ header := { version := 0, previous_hash := zeroHash, merkle_root := zeroHash,
                 timestamp := 0, difficulty := 0, nonce := 0, transaction_count := 0,
                 size := 0, metadata_hash := none },
     transactions := [], metadata := defaultMetadata, index := 0 }⟩

/-- `Blockchain::calculate_next_difficulty`.  The `f64` arithmetic of the
retarget branch is modeled operation by operation with `flRound` (IEEE-754
binary64 round-to-nearest-even): the `as f64` casts of the `i64` seconds
and the two `u64` config values, the product forming `expected_time`, the
division forming `ratio` and the final division by the clamped factor each
round.  The `u32 as f64` cast of the difficulty is exact and carries no
`flRound`.  `expected_time = 0` (interval or target time zero) makes the
Rust `ratio` `±inf` or `NaN`; through `.max(0.25).min(4.0)` those clamp to
`4.0` for a positive numerator and `0.25` otherwise, which the zero test
mirrors.  `.round()` is `roundHalfAway`, `as u32` saturates via `asU32`. -/
def Blockchain.calculate_next_difficulty (st : Blockchain) : Nat :=
  if st.blocks.length < st.config.difficulty_adjustment_interval then
    st.config.initial_difficulty
  else
    let interval := st.config.difficulty_adjustment_interval
    let current_height := st.blocks.length
    if current_height % interval != 0 then
      match st.get_latest_block with
      | some b => b.header.difficulty
      | none => st.config.initial_difficulty
    else
      let start_block := st.blocks.getD (current_height - interval) default
      let end_block := st.blocks.getD (current_height - 1) default
      let time_taken : ℚ :=
        flRound ((end_block.header.timestamp - start_block.header.timestamp : Int) : ℚ)
      let expected_time : ℚ :=
        flRound (flRound (interval : ℚ) * flRound (st.config.target_block_time : ℚ))
      let adjustment_factor : ℚ :=
        if expected_time = 0 then (if 0 < time_taken then 4 else 1 / 4)
        else min (max (flRound (time_taken / expected_time)) (1 / 4)) 4
      let current_difficulty : ℚ := (end_block.header.difficulty : ℚ)
      let new_difficulty :=
        asU32 (roundHalfAway (flRound (current_difficulty / adjustment_factor)))
      max new_difficulty 1

/-- `Blockchain::validate_block`: block validation against the stored
previous block and UTXO map, then the difficulty and timestamp rules. -/
def Blockchain.validate_block (st : Blockchain) (b : Block) (now : Int) :
    Except ValidationError Unit :=
  let previous_block := if b.index == 0 then none else st.get_block_by_index (b.index - 1)
  match b.validate previous_block st.utxoMap now with
  | .error e => .error e
  | .ok () =>
    if b.header.difficulty != st.calculate_next_difficulty then .error .invalidDifficulty
    else if b.header.timestamp > now + 7200 then .error .invalidTimestamp
    else
      match st.get_latest_block with
      | some prev =>
        if b.header.timestamp ≤ prev.header.timestamp then .error .invalidTimestamp
        else .ok ()
      | none => .ok ()

/-- `Blockchain::add_block_internal`: apply to the UTXO set (an error here
keeps the removals already made), evict the block's transactions from the
pool, index, and append. -/
def Blockchain.add_block_internal (st : Blockchain) (b : Block) (update_utxo : Bool) :
    Except ValidationError Unit × Blockchain :=
  let applied := if update_utxo then apply_block_to_utxo_set st.utxo_set b
                 else (st.utxo_set, none)
  match applied with
  | (utxo', some e) => (.error e, { st with utxo_set := utxo' })
  | (utxo', none) =>
    let pool' := b.transactions.foldl (fun p tx => mapRemove p tx.hash) st.transaction_pool
    let idx' := mapInsert st.block_index b.hash b.index
    (.ok (), { st with
               utxo_set := utxo', transaction_pool := pool',
               block_index := idx', blocks := st.blocks ++ [b] })

/-- `Blockchain::add_block`: validate, mine if the target is not yet met,
then add.  The pair carries the mutated-in-place state alongside the
result, since a failing application leaves its partial mutation behind. -/
def Blockchain.add_block (st : Blockchain) (b : Block) (now : Int) :
    Except ValidationError Unit × Blockchain :=
  match st.validate_block b now with
  | .error e => (.error e, st)
  | .ok () =>
    match (if !b.header.meets_difficulty_target then b.mine else .ok b) with
    | .error e => (.error e, st)
    | .ok b' => st.add_block_internal b' true

/-- `Blockchain::new`: fresh state plus the genesis block. -/
def Blockchain.new (config : BlockchainConfig) (genesis_address : Address)
    (now : Int) : Except ValidationError Blockchain :=
  let st : Blockchain :=
    { config := config, blocks := [], utxo_set := [], transaction_pool := [],
      block_index := [] }
  let g := Block.genesis genesis_address config.block_reward now
  if !g.is_genesis then .error .invalidGenesisBlock
  else
    match st.add_block_internal g true with
    | (.error e, _) => .error e
    | (.ok (), st') => .ok st'

/-- The loop of `Blockchain::verify_chain`: validate each block against its
predecessor and the current UTXO map. -/
def verifyChainGo (st : Blockchain) (now : Int) :
    Option Block → List Block → Except ValidationError Unit
  | _, [] => .ok ()
  | prev, b :: rest =>
    match b.validate prev st.utxoMap now with
    | .error e => .error e
    | .ok () => verifyChainGo st now (some b) rest

/-- `Blockchain::verify_chain`. -/
def Blockchain.verify_chain (st : Blockchain) (now : Int) : Except ValidationError Unit :=
  verifyChainGo st now none st.blocks

/-! # The full KV chain variant (`rust-03/chain_kv_full`)

Blocks carry hex-string hashes; proof of work is the string-zero-prefix
form.  Ed25519 itself is abstract, exactly as the spec's signing capability:
`EdCheck` stands for `VerifyingKey::from_bytes` + `verify` (both can fail),
and `KvSigningKey` for a loaded `SigningKey`. -/

/-- `Op`. -/
inductive Op where
  | put (key value : String)
  | del (key : String)
deriving DecidableEq, Repr

/-- The per-operation leaf hash of `merkle_root`. -/
def opLeafHash (op : Op) : String :=
  match op with
  | .put k v => hexEncode (sha256 (utf8 "PUT" ++ utf8 k ++ utf8 v))
  | .del k => hexEncode (sha256 (utf8 "DEL" ++ utf8 k))

/-- One bottom-up level over hex-string hashes (`chunks(2)`, duplicate the
last when odd); the pair hash is SHA-256 over the ASCII of both strings. -/
def kvNextLevel : List String → List String
  | [] => []
  | [x] => [hexEncode (sha256 (utf8 x ++ utf8 x))]
  | x :: y :: rest => hexEncode (sha256 (utf8 x ++ utf8 y)) :: kvNextLevel rest

/-- Each KV level halves the node count, rounding up. -/
theorem kvNextLevel_length :
    ∀ l : List String, (kvNextLevel l).length = (l.length + 1) / 2
  | [] => by simp [kvNextLevel]
  | [_] => by simp [kvNextLevel]
  | _ :: _ :: rest => by
    simp only [kvNextLevel, List.length_cons, kvNextLevel_length rest]
    omega

/-- The `while hashes.len() > 1` fold of `merkle_root`, fueled (any fuel at
least the list length reaches the single remaining hash). -/
def kvFoldGo : Nat → List String → String
  | 0, l => l.headD "0"
  | fuel + 1, l =>
    match l with
    | [] => "0"
    | [x] => x
    | x :: y :: rest => kvFoldGo fuel (kvNextLevel (x :: y :: rest))

/-- The level fold of `merkle_root`. -/
def kvFold (l : List String) : String :=
  kvFoldGo l.length l

/-- `merkle_root(ops)`. -/
def merkle_root_kv (ops : List Op) : String :=
  if ops.isEmpty then "0" else kvFold (ops.map opLeafHash)

/-- `chain_kv_full::Block`. -/
structure BlockKV where
  index : Nat
  timestamp : Int
  ops : List Op
  prev_hash : String
  merkle_root : String
  nonce : Nat
  hash : String
  signature : Option String
  signer_pubkey : Option String
deriving DecidableEq, Repr

/-- `Block::compute_hash`: SHA-256 over index LE ‖ timestamp LE ‖ merkle
root ASCII ‖ previous hash ASCII ‖ nonce LE, hex encoded. -/
def compute_hash_kv (index : Nat) (timestamp : Int) (mr prev : String) (nonce : Nat) :
    String :=
  hexEncode (sha256 (u64le index ++ i64le timestamp ++ utf8 mr ++ utf8 prev ++ u64le nonce))

/-- `"0".repeat(difficulty)`. -/
def zerosStr (d : Nat) : String :=
  String.mk (List.replicate d '0')

/-- Rust `str::starts_with`, over the character lists (our strings are
ASCII, where character-wise and byte-wise prefixes coincide). -/
def strStartsWith (s pre : String) : Bool :=
  pre.data.isPrefixOf s.data

/-- The abstract Ed25519 check: given public-key bytes (already length 32),
message bytes, and signature bytes (already length 64), the outcome of
`VerifyingKey::from_bytes` plus `verify` (either may fail). -/
def EdCheck := List Nat → List Nat → List Nat → Except String Unit

/-- `Block::verify` against the previous hash and the chain difficulty.
`Signature::try_from` on a 64-byte slice cannot fail (ed25519-dalek does no
validation at that point), so no branch models it. -/
def BlockKV.verify (b : BlockKV) (ec : EdCheck) (prev_hash : String) (difficulty : Nat) :
    Except String Unit :=
  if b.prev_hash != prev_hash then .error "prev_hash mismatch"
  else if compute_hash_kv b.index b.timestamp b.merkle_root b.prev_hash b.nonce != b.hash then
    .error "hash mismatch"
  else if !strStartsWith b.hash (zerosStr difficulty) then .error "insufficient PoW"
  else
    match b.signature, b.signer_pubkey with
    | some sigHex, some pubHex =>
      match hexDecode sigHex with
      | none => .error "bad signature hex"
      | some sigBytes =>
        if sigBytes.length != 64 then .error "signature must be 64 bytes"
        else
          match hexDecode pubHex with
          | none => .error "bad pubkey hex"
          | some pkBytes =>
            if pkBytes.length != 32 then .error "public key must be 32 bytes"
            else ec pkBytes (utf8 b.hash) sigBytes
    | _, _ => .ok ()

/-- `chain_kv_full::Chain`. -/
structure ChainKV where
  blocks : List BlockKV
  difficulty : Nat
  batch_active : Bool
  batch_ops : List Op
deriving DecidableEq, Repr

/-- The hard-coded genesis block of `Chain::genesis`. -/
def genesisKV : BlockKV :=
  { index := 0, timestamp := 0, ops := [.put "__genesis__" "ok"], prev_hash := "0",
    merkle_root := "GENESIS", nonce := 0, hash := "GENESIS",
    signature := none, signer_pubkey := none }

/-- `Chain::genesis(difficulty)`. -/
def ChainKV.genesis (difficulty : Nat) : ChainKV :=
  { blocks := [genesisKV], difficulty := difficulty, batch_active := false,
    batch_ops := [] }

/-- `Chain::last_hash`. -/
def ChainKV.last_hash (c : ChainKV) : String :=
  match c.blocks.getLast? with
  | some b => b.hash
  | none => "0"

/-- `Chain::next_index`. -/
def ChainKV.next_index (c : ChainKV) : Nat :=
  match c.blocks.getLast? with
  | some b => b.index + 1
  | none => 0

/-- `Chain::materialize`: fold every block's ops in order; `Put` binds
(except the genesis marker key), `Del` removes. -/
def ChainKV.materialize (c : ChainKV) : List (String × String) :=
  c.blocks.foldl
    (fun st b =>
      b.ops.foldl
        (fun st op =>
          match op with
          | .put k v => if k != "__genesis__" then mapInsert st k v else st
          | .del k => mapRemove st k)
        st)
    []

/-- The `for i in 1..len` loop of `Chain::verify_all`. -/
def verifyAllGo (ec : EdCheck) (d : Nat) : BlockKV → List BlockKV → Except String Unit
  | _, [] => .ok ()
  | prev, b :: rest =>
    match b.verify ec prev.hash d with
    | .error e => .error e
    | .ok () => verifyAllGo ec d b rest

/-- `Chain::verify_all`. -/
def ChainKV.verify_all (c : ChainKV) (ec : EdCheck) : Except String Unit :=
  match c.blocks with
  | [] => .error "empty chain"
  | b0 :: rest => verifyAllGo ec c.difficulty b0 rest

/-- A loaded Ed25519 signing key, abstractly: `sign` produces the 64
signature bytes (`sig.to_bytes()`), `pubkeyBytes` the 32 public-key bytes
(`verifying_key().to_bytes()`). -/
structure KvSigningKey where
  sign : List Nat → List Nat
  pubkeyBytes : List Nat

/-- The signing contract of the abstract capability: byte-valued outputs of
the documented lengths, and verification accepts what signing produced. -/
def SigContract (ec : EdCheck) (k : KvSigningKey) : Prop :=
  (∀ m, (k.sign m).length = 64) ∧
  (∀ m x, x ∈ k.sign m → x < 256) ∧
  k.pubkeyBytes.length = 32 ∧
  (∀ x ∈ k.pubkeyBytes, x < 256) ∧
  (∀ m, ec k.pubkeyBytes m (k.sign m) = .ok ())

/-- The result of `Block::new(index, ops, prev_hash, difficulty, keypair)`:
the mining loop returns some nonce whose hash carries the difficulty's zero
prefix, and the block records hash, signature over the hash's ASCII, and
the signer's public key. -/
def BlockNewKV (k : KvSigningKey) (index : Nat) (ops : List Op) (prev : String)
    (difficulty : Nat) (b : BlockKV) : Prop :=
  ∃ ts nonce,
    strStartsWith (compute_hash_kv index ts (merkle_root_kv ops) prev nonce)
      (zerosStr difficulty) = true ∧
    b = { index := index, timestamp := ts, ops := ops, prev_hash := prev,
          merkle_root := merkle_root_kv ops, nonce := nonce,
          hash := compute_hash_kv index ts (merkle_root_kv ops) prev nonce,
          signature := some (hexEncode (k.sign
            (utf8 (compute_hash_kv index ts (merkle_root_kv ops) prev nonce)))),
          signer_pubkey := some (hexEncode k.pubkeyBytes) }

/-- `Chain::append_signed(ops, keypair)`: push the newly mined signed
block. -/
def AppendSigned (k : KvSigningKey) (c : ChainKV) (ops : List Op) (c' : ChainKV) : Prop :=
  ∃ b, BlockNewKV k c.next_index ops c.last_hash c.difficulty b ∧
       c' = { c with blocks := c.blocks ++ [b] }

/-! # Concrete instances used by the counterexamples and witnesses -/

instance : Inhabited Blockchain :=
  ⟨{ config := defaultConfig, blocks := [], utxo_set := [], transaction_pool := [],
     block_index := [] }⟩

/-- The 32-byte genesis address of the concrete chains below. -/
def genesisAddr : Address := List.replicate 32 1

/-- The chain `Blockchain::new(default config, genesisAddr)` produces when
constructed at 2024-01-01T00:00:00Z. -/
def ledgerChain0 : Blockchain :=
  (Blockchain.new defaultConfig genesisAddr 1704067200).toOption.getD default

/-- An empty-byte signature value (contents never verified by
`Block::validate`). -/
def sigEmpty : Signature := { algorithm := 0, data := [] }

/-- An empty-byte public-key value. -/
def pkEmpty : PublicKey := { algorithm := 0, data := [] }

/-- A non-zero previous-transaction hash for the PoW counterexample. -/
def prevTxA : Hash256 := 1 :: List.replicate 31 0

/-- The transaction of the PoW counterexample block: one ordinary signed
input spending `prevTxA:0`, one 1-unit output. -/
def powCexTx : Transaction :=
  { id := "a", version := 1,
    inputs := [{ previous_tx_hash := prevTxA, output_index := 0,
                 signature := some sigEmpty, public_key := some pkEmpty, sequence := 0 }],
    outputs := [{ amount := 1, recipient := List.replicate 32 2, script := none,
                  spent := false, created_at_height := none }],
    fee := defaultFee, lock_time := 0, timestamp := 1704067201, data := none,
    size := none }

/-- The PoW counterexample block: height 0, difficulty 1, nonce 4 (mined so
that the doubled-nonce PoW hash meets the target while the header hash does
not). -/
def powCexBlock : Block :=
  { header := { version := 1, previous_hash := List.replicate 32 9,
                merkle_root := powCexTx.hash, timestamp := 1704067201,
                difficulty := 1, nonce := 4, transaction_count := 1, size := 0,
                metadata_hash := none },
    transactions := [powCexTx], metadata := defaultMetadata, index := 0 }

/-- A UTXO map granting `powCexTx`'s input 5 spendable units. -/
def powCexUtxo : List (String × TransactionOutput) :=
  [(utxoKey prevTxA 0,
    { amount := 5, recipient := List.replicate 32 3, script := none,
      spent := false, created_at_height := none })]

/-- One input of the double-spend block: spends the genesis coinbase
output. -/
def evilInput : TransactionInput :=
  { previous_tx_hash := (Transaction.coinbase genesisAddr 5000000000 0 1704067200).hash,
    output_index := 0, signature := some sigEmpty, public_key := some pkEmpty,
    sequence := 0 }

/-- The double-spend transaction: the same UTXO spent by both inputs —
which `Transaction::validate` does not reject. -/
def evilTx : Transaction :=
  { id := "e", version := 1, inputs := [evilInput, evilInput],
    outputs := [{ amount := 1, recipient := List.replicate 32 2, script := none,
                  spent := false, created_at_height := none }],
    fee := defaultFee, lock_time := 0, timestamp := 1704067201, data := none,
    size := none }

/-- A fully valid-looking block (height 0, so validated against no
predecessor) carrying the double-spend transaction, mined at
difficulty 1 with nonce 2. -/
def evilBlock : Block :=
  { header := { version := 1, previous_hash := List.replicate 32 7,
                merkle_root := evilTx.hash, timestamp := 1704067201,
                difficulty := 1, nonce := 2, transaction_count := 1, size := 0,
                metadata_hash := none },
    transactions := [evilTx], metadata := defaultMetadata, index := 0 }

/-- A minimal transaction payload shared by the two id-differing
transactions of the transaction-identity claim. -/
def idTxA : Transaction :=
  { id := "00000000-0000-4000-8000-000000000001", version := 1,
    inputs := [{ previous_tx_hash := List.replicate 32 3, output_index := 0,
                 signature := none, public_key := none, sequence := 0 }],
    outputs := [{ amount := 1, recipient := List.replicate 32 2, script := none,
                  spent := false, created_at_height := none }],
    fee := defaultFee, lock_time := 0, timestamp := 1704067200, data := none,
    size := none }

/-- The same transaction with only the `id` changed. -/
def idTxB : Transaction :=
  { idTxA with id := "00000000-0000-4000-8000-000000000002" }

/-! # Theorems -/

set_option maxRecDepth 100000

/-- Assign a list of signature values to a transaction's inputs
positionally (inputs beyond the list keep their signatures). -/
def assignSigs : List TransactionInput → List (Option Signature) → List TransactionInput
  | [], _ => []
  | l, [] => l
  | i :: is, s :: ss => { i with signature := s } :: assignSigs is ss

theorem assignSigs_clear (l : List TransactionInput) (ss : List (Option Signature)) :
    (assignSigs l ss).map clearInputSig = l.map clearInputSig := by
  induction l generalizing ss with
  | nil => cases ss <;> rfl
  | cons i is ih =>
    cases ss with
    | nil => rfl
    | cons s ss' => simp only [assignSigs, List.map_cons, ih, clearInputSig]

/-- C3: for every transaction and every assignment of signature values to
its inputs, `Transaction::hash` is unchanged — the hash is taken over the
transaction with all input signatures cleared, so two transactions that
differ only in input signature fields hash identically. -/
theorem C3_tx_hash_ignores_signatures (t : Transaction) (ss : List (Option Signature)) :
    Transaction.hash { t with inputs := assignSigs t.inputs ss } = Transaction.hash t := by
  unfold Transaction.hash
  rw [assignSigs_clear]

/-- C10: the transaction hash depends on the `id` field: two transactions
identical in version, inputs, outputs, fee, lock time, timestamp and data
but with different ids have different `Transaction::hash` values. -/
theorem C10_tx_hash_depends_on_id :
    idTxA.version = idTxB.version ∧ idTxA.inputs = idTxB.inputs ∧
    idTxA.outputs = idTxB.outputs ∧ idTxA.fee = idTxB.fee ∧
    idTxA.lock_time = idTxB.lock_time ∧ idTxA.timestamp = idTxB.timestamp ∧
    idTxA.data = idTxB.data ∧ idTxA.id ≠ idTxB.id ∧
    idTxA.hash ≠ idTxB.hash := by
  decide

/-- C2 (code bug): `verify_chain` fails with `MultipleCoinbase` on the
minimal chain `Blockchain::new` itself constructs — the genesis block's
position-0 coinbase lands in the `MultipleCoinbase` branch of
`Block::validate`'s loop, so even the freshly built one-block chain never
verifies. -/
theorem C2_genesis_chain_fails_verify_chain :
    (Blockchain.new defaultConfig genesisAddr 1704067200).map
      (fun st => (st.blocks.length, st.verify_chain 1704067201)) =
    .ok (1, .error .multipleCoinbase) := by
  decide

/-- C1 (counterexample): `powCexBlock` is accepted by `Block::validate`,
yet the hash of its header's canonical encoding — the block hash — does
not satisfy the target implied by the header's difficulty.  (Validation
checks a different hash: the header encoding with the nonce appended
again.) -/
theorem C1_counterexample :
    powCexBlock.validate none powCexUtxo 1704067201 = .ok () ∧
    hash_meets_target powCexBlock.hash (calculate_target powCexBlock.header.difficulty)
      = false := by
  decide

/-- C1 (amended): for every block accepted by `Block::validate`, the
proof-of-work hash that satisfies the difficulty target is
`meets_difficulty_target`'s hash — SHA-256 of the header's canonical
encoding with the nonce's little-endian bytes appended once more — not the
hash of the header encoding alone. -/
theorem C1_accepted_block_meets_pow (b : Block) (prev : Option Block)
    (utxo : List (String × TransactionOutput)) (now : Int)
    (h : b.validate prev utxo now = .ok ()) :
    b.header.meets_difficulty_target = true := by
  unfold Block.validate at h
  repeat' split at h
  all_goals simp_all

/-- C1 witness: the amended theorem applied at the concrete accepted
block. -/
theorem C1_accepted_block_meets_pow_witness :
    powCexBlock.validate none powCexUtxo 1704067201 = .ok () ∧
    powCexBlock.header.meets_difficulty_target = true :=
  ⟨by decide, C1_accepted_block_meets_pow powCexBlock none powCexUtxo 1704067201 (by decide)⟩

/-- C7 (counterexample): appending `evilBlock` (whose transaction spends
the same UTXO with both inputs) to the freshly constructed chain passes
validation, fails during block application, and leaves the UTXO set
mutated — the genesis coinbase UTXO is gone although `add_block` returned
an error.  Height and mempool are unchanged. -/
theorem C7_counterexample :
    Blockchain.new defaultConfig genesisAddr 1704067200 = .ok ledgerChain0 ∧
    (ledgerChain0.add_block evilBlock 1704067201).1 = .error .utxoNotFound ∧
    (ledgerChain0.add_block evilBlock 1704067201).2.utxo_set ≠ ledgerChain0.utxo_set ∧
    ledgerChain0.utxo_set.length = 1 ∧
    (ledgerChain0.add_block evilBlock 1704067201).2.utxo_set = [] ∧
    (ledgerChain0.add_block evilBlock 1704067201).2.blocks = ledgerChain0.blocks ∧
    (ledgerChain0.add_block evilBlock 1704067201).2.transaction_pool
      = ledgerChain0.transaction_pool := by
  decide

/-- C7 (amended): a failed `add_block` never advances the chain height and
never evicts from the mempool; the UTXO set, however, retains whatever
deletions and insertions block application performed before the failing
input lookup (application is not all-or-nothing). -/
theorem C7_failed_append_keeps_blocks_and_pool (st : Blockchain) (b : Block)
    (now : Int) (e : ValidationError)
    (h : (st.add_block b now).1 = .error e) :
    (st.add_block b now).2.blocks = st.blocks ∧
    (st.add_block b now).2.transaction_pool = st.transaction_pool := by
  unfold Blockchain.add_block
  cases hv : st.validate_block b now with
  | error e2 => exact ⟨rfl, rfl⟩
  | ok u =>
    cases u
    cases hm : (if !b.header.meets_difficulty_target then b.mine else Except.ok b) with
    | error e2 => exact ⟨rfl, rfl⟩
    | ok b' =>
      unfold Blockchain.add_block at h
      rw [hv] at h
      rw [hm] at h
      unfold Blockchain.add_block_internal at h ⊢
      simp only [reduceIte] at h ⊢
      cases ha : apply_block_to_utxo_set st.utxo_set b' with
      | mk m' r =>
        rw [ha] at h
        cases r with
        | none => exact Except.noConfusion h
        | some e2 => exact ⟨rfl, rfl⟩

/-- C7 witness: the amended theorem applied at the concrete failing
append. -/
theorem C7_failed_append_keeps_blocks_and_pool_witness :
    (ledgerChain0.add_block evilBlock 1704067201).1 = .error .utxoNotFound ∧
    (ledgerChain0.add_block evilBlock 1704067201).2.blocks = ledgerChain0.blocks ∧
    (ledgerChain0.add_block evilBlock 1704067201).2.transaction_pool
      = ledgerChain0.transaction_pool :=
  ⟨by decide,
   C7_failed_append_keeps_blocks_and_pool ledgerChain0 evilBlock 1704067201
     .utxoNotFound (by decide)⟩

/-- An adjacent pair of KV blocks whose link, recomputed hash and PoW
prefix are in order while the signature or signer field is absent. -/
def GoodUnsigned (d : Nat) (a b : BlockKV) : Prop :=
  b.prev_hash = a.hash ∧
  compute_hash_kv b.index b.timestamp b.merkle_root b.prev_hash b.nonce = b.hash ∧
  strStartsWith b.hash (zerosStr d) = true ∧
  (b.signature = none ∨ b.signer_pubkey = none)

theorem verify_skips_missing_sig (ec : EdCheck) (b : BlockKV) (prev : String) (d : Nat)
    (h1 : b.prev_hash = prev)
    (h2 : compute_hash_kv b.index b.timestamp b.merkle_root b.prev_hash b.nonce = b.hash)
    (h3 : strStartsWith b.hash (zerosStr d) = true)
    (h4 : b.signature = none ∨ b.signer_pubkey = none) :
    b.verify ec prev d = .ok () := by
  subst h1
  unfold BlockKV.verify
  rw [h2]
  simp only [bne_self_eq_false, Bool.false_eq_true, if_false, h3, Bool.not_true]
  rcases h4 with h4 | h4
  · rw [h4]
  · rw [h4]
    cases b.signature <;> rfl

theorem verifyAllGo_ok (ec : EdCheck) (d : Nat) :
    ∀ (prev : BlockKV) (rest : List BlockKV),
      List.Chain (GoodUnsigned d) prev rest →
      verifyAllGo ec d prev rest = .ok ()
  | _, [], _ => rfl
  | prev, b :: rest, h => by
    cases h with
    | cons hg hc =>
      unfold verifyAllGo
      rw [verify_skips_missing_sig ec b prev.hash d hg.1 hg.2.1 hg.2.2.1 hg.2.2.2]
      exact verifyAllGo_ok ec d b rest hc

/-- C9: `Block::verify` skips the signature check entirely when the
signature or signer field is `None` — under any Ed25519 verifier, a block
with matching link, recomputed hash and PoW prefix verifies without any
signature, and a whole chain of unsigned non-genesis blocks passes
`verify_all`. -/
theorem C9_verify_skips_absent_signature (ec : EdCheck) :
    (∀ (b : BlockKV) (prev : String) (d : Nat),
       b.prev_hash = prev →
       compute_hash_kv b.index b.timestamp b.merkle_root b.prev_hash b.nonce = b.hash →
       strStartsWith b.hash (zerosStr d) = true →
       b.signature = none ∨ b.signer_pubkey = none →
       b.verify ec prev d = .ok ()) ∧
    (∀ (d : Nat) (b0 : BlockKV) (rest : List BlockKV) (ba : Bool) (bops : List Op),
       List.Chain (GoodUnsigned d) b0 rest →
       ChainKV.verify_all
         { blocks := b0 :: rest, difficulty := d, batch_active := ba,
           batch_ops := bops } ec = .ok ()) := by
  refine ⟨fun b prev d h1 h2 h3 h4 => verify_skips_missing_sig ec b prev d h1 h2 h3 h4,
          fun d b0 rest ba bops hc => ?_⟩
  unfold ChainKV.verify_all
  exact verifyAllGo_ok ec d b0 rest hc

/-- A mined but unsigned KV block on top of the genesis block, difficulty
1 (nonce 1 gives the required zero prefix). -/
def kvUnsignedBlock : BlockKV :=
  { index := 1, timestamp := 5, ops := [.put "k" "v"], prev_hash := "GENESIS",
    merkle_root := merkle_root_kv [.put "k" "v"], nonce := 1,
    hash := compute_hash_kv 1 5 (merkle_root_kv [.put "k" "v"]) "GENESIS" 1,
    signature := none, signer_pubkey := none }

/-- An Ed25519 verifier that rejects everything: if it were ever consulted,
verification would fail. -/
def edReject : EdCheck := fun _ _ _ => .error "reject"

/-- C9 witness: a concrete signature-free chain passes `verify_all` even
under the always-rejecting verifier. -/
theorem C9_verify_skips_absent_signature_witness :
    ChainKV.verify_all
      { blocks := [genesisKV, kvUnsignedBlock], difficulty := 1,
        batch_active := false, batch_ops := [] } edReject = .ok () :=
  (C9_verify_skips_absent_signature edReject).2 1 genesisKV [kvUnsignedBlock] false []
    (List.Chain.cons ⟨rfl, rfl, by decide, Or.inl rfl⟩ List.Chain.nil)

theorem hexDigitValue_hexDigit (n : Nat) (h : n < 16) :
    hexDigitValue (hexDigit n) = some n := by
  interval_cases n <;> decide

theorem hexDecodeList_hexBytes (bs : List Nat) (h : ∀ x ∈ bs, x < 256) :
    hexDecodeList ((bs.map hexByte).flatten) = some bs := by
  induction bs with
  | nil => rfl
  | cons b rest ih =>
    have hb : b < 256 := h b (List.mem_cons_self b rest)
    have hb1 : b / 16 < 16 := by omega
    have hb2 : b % 16 < 16 := by omega
    have hb3 : b / 16 * 16 + b % 16 = b := by omega
    simp only [List.map_cons, List.flatten_cons, hexByte, List.cons_append, List.nil_append]
    show hexDecodeList (hexDigit (b / 16) :: hexDigit (b % 16) :: (rest.map hexByte).flatten) = _
    unfold hexDecodeList
    rw [hexDigitValue_hexDigit _ hb1, hexDigitValue_hexDigit _ hb2,
        ih (fun x hx => h x (List.mem_cons_of_mem b hx))]
    simp only [Option.pure_def, Option.bind_eq_bind, Option.some_bind]
    rw [hb3]

/-- `hex::decode ∘ hex::encode` round-trips on byte strings. -/
theorem hexDecode_hexEncode (bs : List Nat) (h : ∀ x ∈ bs, x < 256) :
    hexDecode (hexEncode bs) = some bs := by
  show hexDecodeList (String.mk ((bs.map hexByte).flatten)).data = some bs
  exact hexDecodeList_hexBytes bs h

/-- A freshly mined signed block (the exact shape `Block::new` returns)
passes `Block::verify` under the signing contract. -/
theorem verify_newKV (ec : EdCheck) (k : KvSigningKey) (hk : SigContract ec k)
    (index : Nat) (ts : Int) (ops : List Op) (prev : String) (d nonce : Nat)
    (hpow : strStartsWith (compute_hash_kv index ts (merkle_root_kv ops) prev nonce)
      (zerosStr d) = true) :
    BlockKV.verify
      { index := index, timestamp := ts, ops := ops, prev_hash := prev,
        merkle_root := merkle_root_kv ops, nonce := nonce,
        hash := compute_hash_kv index ts (merkle_root_kv ops) prev nonce,
        signature := some (hexEncode (k.sign
          (utf8 (compute_hash_kv index ts (merkle_root_kv ops) prev nonce)))),
        signer_pubkey := some (hexEncode k.pubkeyBytes) } ec prev d = .ok () := by
  obtain ⟨hlen, hbound, hplen, hpbound, hok⟩ := hk
  unfold BlockKV.verify
  simp only [bne_self_eq_false, Bool.false_eq_true, if_false, hpow, Bool.not_true]
  rw [hexDecode_hexEncode _ (fun x hx => hbound _ x hx)]
  rw [hexDecode_hexEncode k.pubkeyBytes hpbound]
  simp only [hlen, hplen, bne_self_eq_false, Bool.false_eq_true, if_false]
  exact hok _

theorem verifyAllGo_append (ec : EdCheck) (d : Nat) :
    ∀ (prev : BlockKV) (rest : List BlockKV) (b : BlockKV),
      verifyAllGo ec d prev rest = .ok () →
      BlockKV.verify b ec (List.getLastD rest prev).hash d = .ok () →
      verifyAllGo ec d prev (rest ++ [b]) = .ok ()
  | prev, [], b, _, hb => by
    unfold verifyAllGo
    simp only [List.nil_append]
    rw [show List.getLastD ([] : List BlockKV) prev = prev from rfl] at hb
    rw [hb]
    rfl
  | prev, r :: rest, b, h, hb => by
    unfold verifyAllGo at h ⊢
    simp only [List.cons_append]
    cases hr : r.verify ec prev.hash d with
    | error e => rw [hr] at h; exact absurd h (by simp)
    | ok u =>
      cases u
      rw [hr] at h
      rw [List.getLastD_cons] at hb
      exact verifyAllGo_append ec d r rest b h hb

/-- C8: from the genesis chain, appending a signed block with
`Put("role","admin")` and then one with `Del("role")` (via
`Chain::append_signed`, under the abstract signing contract) yields a
3-block chain whose materialized state holds no binding for `"role"` and
which passes `verify_all`. -/
theorem C8_put_then_delete (ec : EdCheck) (k : KvSigningKey) (d : Nat) (c1 c2 : ChainKV)
    (hk : SigContract ec k)
    (h1 : AppendSigned k (ChainKV.genesis d) [.put "role" "admin"] c1)
    (h2 : AppendSigned k c1 [.del "role"] c2) :
    mapGet c2.materialize "role" = none ∧
    c2.blocks.length = 3 ∧
    c2.verify_all ec = .ok () := by
  obtain ⟨b1, ⟨ts1, n1, hpow1, hb1⟩, hc1⟩ := h1
  obtain ⟨b2, ⟨ts2, n2, hpow2, hb2⟩, hc2⟩ := h2
  subst hc2
  subst hc1
  subst hb2
  subst hb1
  refine ⟨rfl, rfl, ?_⟩
  have hv1 : _ = Except.ok () := verify_newKV ec k hk _ ts1 [.put "role" "admin"] _ d n1 hpow1
  have hv2 : _ = Except.ok () := verify_newKV ec k hk _ ts2 [.del "role"] _ d n2 hpow2
  have s1 := verifyAllGo_append ec d genesisKV [] _ rfl hv1
  have s2 := verifyAllGo_append ec d genesisKV ([] ++ [_]) _ s1 hv2
  exact s2

/-- A mock signing capability for the witness: constant 64-zero-byte
signatures, a 32-zero-byte public key. -/
def mockKvKey : KvSigningKey :=
  { sign := fun _ => List.replicate 64 0, pubkeyBytes := List.replicate 32 0 }

/-- The matching mock verifier: accepts everything. -/
def edAccept : EdCheck := fun _ _ _ => .ok ()

/-- The first appended block of the witness chain: `Put("role","admin")`
at timestamp 1, mined with nonce 34 at difficulty 1. -/
def c8block1 : BlockKV :=
  { index := (ChainKV.genesis 1).next_index, timestamp := 1,
    ops := [.put "role" "admin"], prev_hash := (ChainKV.genesis 1).last_hash,
    merkle_root := merkle_root_kv [.put "role" "admin"], nonce := 34,
    hash := compute_hash_kv (ChainKV.genesis 1).next_index 1
      (merkle_root_kv [.put "role" "admin"]) ((ChainKV.genesis 1).last_hash) 34,
    signature := some (hexEncode (mockKvKey.sign
      (utf8 (compute_hash_kv (ChainKV.genesis 1).next_index 1
        (merkle_root_kv [.put "role" "admin"]) ((ChainKV.genesis 1).last_hash) 34)))),
    signer_pubkey := some (hexEncode mockKvKey.pubkeyBytes) }

/-- The witness chain after the first append. -/
def c8chain1 : ChainKV :=
  { ChainKV.genesis 1 with blocks := (ChainKV.genesis 1).blocks ++ [c8block1] }

/-- The second appended block: `Del("role")` at timestamp 2, mined with
nonce 14. -/
def c8block2 : BlockKV :=
  { index := c8chain1.next_index, timestamp := 2, ops := [.del "role"],
    prev_hash := c8chain1.last_hash, merkle_root := merkle_root_kv [.del "role"],
    nonce := 14,
    hash := compute_hash_kv c8chain1.next_index 2 (merkle_root_kv [.del "role"])
      c8chain1.last_hash 14,
    signature := some (hexEncode (mockKvKey.sign
      (utf8 (compute_hash_kv c8chain1.next_index 2 (merkle_root_kv [.del "role"])
        c8chain1.last_hash 14)))),
    signer_pubkey := some (hexEncode mockKvKey.pubkeyBytes) }

/-- The witness chain after both appends. -/
def c8chain2 : ChainKV :=
  { c8chain1 with blocks := c8chain1.blocks ++ [c8block2] }

/-- C8 witness: the theorem applied at the concrete mined chain and the
mock signing capability. -/
theorem C8_put_then_delete_witness :
    mapGet c8chain2.materialize "role" = none ∧
    c8chain2.blocks.length = 3 ∧
    c8chain2.verify_all edAccept = .ok () :=
  C8_put_then_delete edAccept mockKvKey 1 c8chain1 c8chain2
    ⟨fun _ => rfl,
     fun _ x hx => by rw [List.eq_of_mem_replicate hx]; omega,
     rfl,
     fun x hx => by rw [List.eq_of_mem_replicate hx]; omega,
     fun _ => rfl⟩
    ⟨c8block1, ⟨1, 34, by decide, rfl⟩, rfl⟩
    ⟨c8block2, ⟨2, 14, by decide, rfl⟩, rfl⟩

/-- The bytes of `calculate_target`, in closed form. -/
theorem calculate_target_bytes :
    ∀ k < 257, calculate_target k =
      (List.range 32).map (fun i =>
        if i < k / 8 then 0
        else if i = k / 8 ∧ k % 8 > 0 then 255 >>> (k % 8)
        else 255) := by
  decide

/-- Bit `j` (big-endian bit order, bit 0 the most significant bit of byte
0) of a 32-byte value. -/
def targetBit (t : Hash256) (j : Nat) : Bool :=
  Nat.testBit (t.getD (j / 8) 0) (7 - j % 8)

theorem target_bit_iff (k : Nat) (hk : k ≤ 256) (j : Nat) (hj : j < 256) :
    (targetBit (calculate_target k) j = true ↔ k ≤ j) := by
  rw [calculate_target_bytes k (by omega)]
  unfold targetBit
  have hij : j / 8 < 32 := by omega
  rw [List.getD_eq_getElem?_getD, List.getElem?_map, List.getElem?_range hij]
  show (Nat.testBit (if j / 8 < k / 8 then 0
        else if j / 8 = k / 8 ∧ k % 8 > 0 then 255 >>> (k % 8)
        else 255) (7 - j % 8) = true ↔ k ≤ j)
  by_cases h1 : j / 8 < k / 8
  · rw [if_pos h1, Nat.zero_testBit]
    constructor
    · intro hF; exact absurd hF (by simp)
    · intro hkj; omega
  · rw [if_neg h1]
    by_cases h2 : j / 8 = k / 8 ∧ k % 8 > 0
    · rw [if_pos h2]
      have hm8 : k % 8 < 8 := Nat.mod_lt _ (by norm_num)
      have hmask : (255 : Nat) >>> (k % 8) = 2 ^ (8 - k % 8) - 1 := by
        obtain ⟨-, h2b⟩ := h2
        interval_cases h : (k % 8) <;> rfl
      rw [hmask, Nat.testBit_two_pow_sub_one]
      rw [decide_eq_true_iff]
      omega
    · rw [if_neg h2]
      have h255 : (255 : Nat) = 2 ^ 8 - 1 := rfl
      rw [h255, Nat.testBit_two_pow_sub_one, decide_eq_true_iff]
      constructor
      · intro _; omega
      · intro _; omega

/-- Spec-level lexicographic byte-wise less-or-equal: equal lists, or a
strictly smaller byte at the first differing position. -/
def lexLeSpec (h t : List Nat) : Prop :=
  h = t ∨ ∃ i, i < h.length ∧ i < t.length ∧
    (∀ j, j < i → h.getD j 0 = t.getD j 0) ∧ h.getD i 0 < t.getD i 0

theorem sliceCmp_ne_gt_iff :
    ∀ (h t : List Nat), h.length = t.length →
      (sliceCmp h t ≠ .gt ↔ lexLeSpec h t)
  | [], [], _ => by
    simp [sliceCmp, lexLeSpec]
  | [], _ :: _, hl => by simp at hl
  | _ :: _, [], hl => by simp at hl
  | a :: as, b :: bs, hl => by
    have hl' : as.length = bs.length := by simpa using hl
    unfold sliceCmp
    by_cases h1 : a < b
    · rw [if_pos h1]
      constructor
      · intro _
        exact Or.inr ⟨0, by simp, by simp, fun j hj => absurd hj (by omega), h1⟩
      · intro _
        simp
    · rw [if_neg h1]
      by_cases h2 : b < a
      · rw [if_pos h2]
        constructor
        · intro hc; exact absurd rfl hc
        · rintro (heq | ⟨i, hi1, hi2, hpre, hlt⟩)
          · cases heq; omega
          · match i with
            | 0 => simp at hlt; omega
            | i' + 1 =>
              have := hpre 0 (by omega)
              simp at this
              omega
      · rw [if_neg h2]
        have hab : a = b := by omega
        subst hab
        rw [sliceCmp_ne_gt_iff as bs hl']
        constructor
        · rintro (heq | ⟨i, hi1, hi2, hpre, hlt⟩)
          · exact Or.inl (by rw [heq])
          · refine Or.inr ⟨i + 1, by simpa using hi1, by simpa using hi2, ?_, hlt⟩
            intro j hj
            cases j with
            | zero => rfl
            | succ j' => exact hpre j' (by omega)
        · rintro (heq | ⟨i, hi1, hi2, hpre, hlt⟩)
          · exact Or.inl (by cases heq; rfl)
          · match i with
            | 0 => simp at hlt
            | i' + 1 =>
              refine Or.inr ⟨i', by simpa using hi1, by simpa using hi2, ?_, hlt⟩
              intro j hj
              exact hpre (j + 1) (by omega)

/-- C5: `calculate_target(k)` (for `k ≤ 256`) is the 32-byte value whose
first `k` bits are zero and whose remaining bits are one, and
`hash_meets_target` holds exactly when the hash compares lexicographically
at most the target, byte-wise. -/
theorem C5_target_and_comparison :
    (∀ k, k ≤ 256 → ∀ j, j < 256 →
       (targetBit (calculate_target k) j = true ↔ k ≤ j)) ∧
    (∀ h t : List Nat, h.length = t.length →
       (hash_meets_target h t = true ↔ lexLeSpec h t)) := by
  constructor
  · exact fun k hk j hj => target_bit_iff k hk j hj
  · intro h t hl
    rw [← sliceCmp_ne_gt_iff h t hl]
    unfold hash_meets_target
    cases sliceCmp h t <;> simp

/-- C5 witness: the theorem instantiated at `k = 12` around the boundary
bit, and at two concrete 32-byte values. -/
theorem C5_target_and_comparison_witness :
    ((targetBit (calculate_target 12) 11 = true ↔ 12 ≤ 11) ∧
     (targetBit (calculate_target 12) 12 = true ↔ 12 ≤ 12)) ∧
    (hash_meets_target (calculate_target 9) (calculate_target 8) = true ↔
      lexLeSpec (calculate_target 9) (calculate_target 8)) :=
  ⟨⟨C5_target_and_comparison.1 12 (by omega) 11 (by omega),
    C5_target_and_comparison.1 12 (by omega) 12 (by omega)⟩,
   C5_target_and_comparison.2 (calculate_target 9) (calculate_target 8) (by decide)⟩

theorem nextLevel_getD :
    ∀ (l : List Hash256) (i : Nat), i < l.length →
      (nextLevel l).getD (i / 2) zeroHash =
        if i % 2 == 0 then
          (if i + 1 < l.length then combine (l.getD i zeroHash) (l.getD (i + 1) zeroHash)
           else combine (l.getD i zeroHash) (l.getD i zeroHash))
        else combine (l.getD (i - 1) zeroHash) (l.getD i zeroHash)
  | [], i, h => by simp at h
  | [x], i, h => by
    have : i = 0 := by simpa using h
    subst this
    simp [nextLevel]
  | x :: y :: rest, i, h => by
    match i with
    | 0 => simp [nextLevel]
    | 1 => simp [nextLevel]
    | i' + 2 =>
      have hi' : i' < rest.length := by simpa using h
      have e1 : (i' + 2) / 2 = i' / 2 + 1 := by omega
      have e2 : ((i' + 2) % 2 == 0) = (i' % 2 == 0) := by
        have h2 : (i' + 2) % 2 = i' % 2 := by omega
        rw [h2]
      rw [e1, e2]
      have lhs : (nextLevel (x :: y :: rest)).getD (i' / 2 + 1) zeroHash
          = (nextLevel rest).getD (i' / 2) zeroHash := rfl
      rw [lhs, nextLevel_getD rest i' hi']
      by_cases hpar : (i' % 2 == 0) = true
      · rw [if_pos hpar, if_pos hpar]
        by_cases hlen : i' + 1 < rest.length
        · rw [if_pos hlen, if_pos (by simp only [List.length_cons]; omega :
            i' + 2 + 1 < (x :: y :: rest).length)]
          rfl
        · rw [if_neg hlen, if_neg (by simp only [List.length_cons]; omega :
            ¬ i' + 2 + 1 < (x :: y :: rest).length)]
          rfl
      · rw [if_neg hpar, if_neg hpar]
        obtain ⟨i'', rfl⟩ : ∃ i'', i' = i'' + 1 := by
          rcases Nat.mod_two_eq_zero_or_one i' with h0 | hodd
          · exact absurd (by simp [h0]) hpar
          · exact ⟨i' - 1, by omega⟩
        rfl

theorem verifyFold_proofStepsGo :
    ∀ (fuel : Nat) (l : List Hash256) (i : Nat), i < l.length → l.length ≤ fuel →
      verifyFold (l.getD i zeroHash) (proofStepsGo fuel l i) = rootGo fuel l
  | 0, l, i, hi, hf => by omega
  | fuel + 1, [], i, hi, hf => by simp at hi
  | fuel + 1, [x], i, hi, hf => by
    have : i = 0 := by simpa using hi
    subst this
    rfl
  | fuel + 1, x :: y :: rest, i, hi, hf => by
    have hlen : (nextLevel (x :: y :: rest)).length = (rest.length + 2 + 1) / 2 := by
      rw [nextLevel_length]; simp
    have hi2 : i / 2 < (nextLevel (x :: y :: rest)).length := by
      rw [hlen]; simp only [List.length_cons] at hi; omega
    have hf2 : (nextLevel (x :: y :: rest)).length ≤ fuel := by
      rw [hlen]; simp only [List.length_cons] at hi hf ⊢; omega
    have IH := verifyFold_proofStepsGo fuel (nextLevel (x :: y :: rest)) (i / 2) hi2 hf2
    rw [nextLevel_getD (x :: y :: rest) i hi] at IH
    show verifyFold _ ((_, _) :: proofStepsGo fuel (nextLevel (x :: y :: rest)) (i / 2)) = _
    unfold verifyFold
    by_cases hpar : (i % 2 == 0) = true
    · by_cases hlen2 : i + 1 < (x :: y :: rest).length
      · simp only [if_pos hpar, if_pos hlen2] at IH ⊢
        exact IH
      · simp only [if_pos hpar, if_neg hlen2] at IH ⊢
        exact IH
    · simp only [if_neg hpar] at IH ⊢
      exact IH

/-- C4: for every leaf list and index within range, the inclusion proof
`generate_proof_by_index` produces verifies against the tree's root. -/
theorem C4_generated_proof_verifies (leaves : List Hash256) (i : Nat)
    (hi : i < leaves.length) :
    (generate_proof_by_index leaves i).map
      (fun p => p.verify (rootFromLevel leaves)) = .ok true := by
  unfold generate_proof_by_index
  rw [if_neg (by omega)]
  show Except.ok _ = Except.ok true
  congr 1
  unfold MerkleProof.verify
  dsimp only
  rw [if_neg (by simp)]
  rw [List.zip_map']
  simp only [Prod.mk.eta, List.map_id, List.map_id']
  show (verifyFold (leaves.getD i zeroHash) (proofSteps leaves i)
    == rootFromLevel leaves) = true
  rw [show proofSteps leaves i = proofStepsGo leaves.length leaves i from rfl]
  rw [verifyFold_proofStepsGo leaves.length leaves i hi (le_refl _)]
  exact beq_self_eq_true _

/-- Three distinct leaves: the odd level exercises the duplicate-last
rule. -/
def merkleLeaves3 : List Hash256 :=
  [List.replicate 32 1, List.replicate 32 2, List.replicate 32 3]

/-- C4 witness: the theorem applied at a concrete three-leaf tree and the
last index. -/
theorem C4_generated_proof_verifies_witness :
    2 < merkleLeaves3.length ∧
    (generate_proof_by_index merkleLeaves3 2).map
      (fun p => p.verify (rootFromLevel merkleLeaves3)) = .ok true :=
  ⟨by decide, C4_generated_proof_verifies merkleLeaves3 2 (by decide)⟩

/-- Clamping to `[1/4, 4]` commutes with taking reciprocals (the bounds are
mutually reciprocal). -/
theorem clamp_inv (r : ℚ) (hr : 0 < r) :
    (min (max r (1 / 4)) 4)⁻¹ = min (max r⁻¹ (1 / 4)) 4 := by
  rcases le_total r (1 / 4) with h1 | h1
  · have e1 : max r (1 / 4) = 1 / 4 := max_eq_right h1
    have h2 : (4 : ℚ) ≤ r⁻¹ := by
      rw [show (4 : ℚ) = (1 / 4 : ℚ)⁻¹ by norm_num]
      exact inv_le_inv_of_le hr h1
    rw [e1, min_eq_left (by norm_num), max_eq_left (by linarith), min_eq_right h2]
    norm_num
  · rcases le_total 4 r with h2 | h2
    · have e1 : max r (1 / 4) = r := max_eq_left (by linarith)
      have h3 : r⁻¹ ≤ 1 / 4 := by
        rw [show (1 / 4 : ℚ) = (4 : ℚ)⁻¹ by norm_num]
        exact inv_le_inv_of_le (by norm_num) h2
      rw [e1, min_eq_right h2, max_eq_right h3, min_eq_left (by norm_num)]
      norm_num
    · have e1 : max r (1 / 4) = r := max_eq_left h1
      have h3 : (1 / 4 : ℚ) ≤ r⁻¹ := by
        rw [show (1 / 4 : ℚ) = (4 : ℚ)⁻¹ by norm_num]
        exact inv_le_inv_of_le hr h2
      have h4 : r⁻¹ ≤ 4 := by
        rw [show (4 : ℚ) = (1 / 4 : ℚ)⁻¹ by norm_num]
        exact inv_le_inv_of_le (by norm_num) h1
      rw [e1, min_eq_left (by linarith), max_eq_left h3, min_eq_left h4]

theorem nat_lt_div_succ_mul (n d : Nat) (hd : 0 < d) : n < (n / d + 1) * d := by
  have h1 := Nat.div_add_mod n d
  have h2 := Nat.mod_lt n hd
  calc n = d * (n / d) + n % d := h1.symm
    _ < d * (n / d) + d := by omega
    _ = (n / d + 1) * d := by ring

theorem log2Go_spec : ∀ (fuel n : Nat), n ≤ fuel → 0 < n →
    2 ^ log2Go fuel n ≤ n ∧ n < 2 ^ (log2Go fuel n + 1)
  | 0, n, hf, hn => by omega
  | fuel + 1, n, hf, hn => by
    unfold log2Go
    by_cases h2 : 2 ≤ n
    · rw [if_pos h2]
      have ih := log2Go_spec fuel (n / 2) (by omega) (by omega)
      rw [pow_succ, pow_succ]
      rw [pow_succ] at ih
      omega
    · rw [if_neg h2]
      simp only [pow_zero, pow_one]
      omega

theorem nlog2_spec (n : Nat) (hn : 0 < n) :
    2 ^ nlog2 n ≤ n ∧ n < 2 ^ (nlog2 n + 1) := log2Go_spec n n le_rfl hn

theorem rne_bounds (q : ℚ) : ⌊q⌋ ≤ rne q ∧ rne q ≤ ⌊q⌋ + 1 := by
  unfold rne
  repeat' split
  all_goals omega

theorem rne_intCast (m : Int) : rne (m : ℚ) = m := by
  unfold rne
  rw [Int.floor_intCast, sub_self]
  norm_num

/-- The scale is positive, a (possibly inverted) power of two, and lands
`q` in the mantissa range. -/
theorem flScale_spec (q : ℚ) (hq : 0 < q) :
    0 < flScale q.num.natAbs q.den ∧
    2 ^ 52 ≤ q * flScale q.num.natAbs q.den ∧
    q * flScale q.num.natAbs q.den < 2 ^ 53 ∧
    ∃ m : Nat, flScale q.num.natAbs q.den = ((2 ^ m : Nat) : ℚ) ∨
               flScale q.num.natAbs q.den = ((2 ^ m : Nat) : ℚ)⁻¹ := by
  set n := q.num.natAbs with hn
  set d := q.den with hd
  have hd0 : 0 < d := q.pos
  have hn0 : 0 < n := by
    have := Rat.num_pos.mpr hq
    omega
  have hqnd : q = (n : ℚ) / (d : ℚ) := by
    have h1 : ((n : ℤ) : ℚ) = (q.num : ℚ) := by
      rw [hn, Int.natAbs_of_nonneg (Rat.num_nonneg.mpr hq.le)]
    rw [show ((n : ℕ) : ℚ) = ((n : ℤ) : ℚ) by push_cast; ring, h1, hd]
    exact (Rat.num_div_den q).symm
  have hdq : (0 : ℚ) < (d : ℚ) := by exact_mod_cast hd0
  unfold flScale
  by_cases hdn : d ≤ n
  · rw [if_pos hdn]
    have hnd1 : 0 < n / d := Nat.div_pos hdn hd0
    obtain ⟨hlo, hhi⟩ := nlog2_spec (n / d) hnd1
    set e := nlog2 (n / d) with he
    have hlo' : 2 ^ e * d ≤ n := (Nat.le_div_iff_mul_le hd0).1 hlo
    have hhi' : n < 2 ^ (e + 1) * d := by
      calc n < (n / d + 1) * d := nat_lt_div_succ_mul n d hd0
        _ ≤ 2 ^ (e + 1) * d := Nat.mul_le_mul_right d hhi
    by_cases he52 : e ≤ 52
    · rw [if_pos he52]
      have hpow : 2 ^ e * 2 ^ (52 - e) = 2 ^ 52 := by
        rw [← pow_add]
        congr 1
        omega
      have hq52 : (2 : ℚ) ^ 52 ≤ q * ((2 ^ (52 - e) : Nat) : ℚ) := by
        rw [hqnd, div_mul_eq_mul_div, le_div_iff₀ hdq]
        have h3 : 2 ^ e * d * 2 ^ (52 - e) ≤ n * 2 ^ (52 - e) :=
          Nat.mul_le_mul_right _ hlo'
        rw [mul_right_comm, hpow] at h3
        exact_mod_cast h3
      have hq53 : q * ((2 ^ (52 - e) : Nat) : ℚ) < 2 ^ 53 := by
        rw [hqnd, div_mul_eq_mul_div, div_lt_iff₀ hdq]
        have h3 : n * 2 ^ (52 - e) < 2 ^ (e + 1) * d * 2 ^ (52 - e) :=
          (Nat.mul_lt_mul_right (Nat.pos_pow_of_pos _ (by norm_num))).2 hhi'
        have h4 : 2 ^ (e + 1) * d * 2 ^ (52 - e) = 2 ^ 53 * d := by
          rw [mul_right_comm, ← pow_add, show e + 1 + (52 - e) = 53 by omega]
        rw [h4] at h3
        exact_mod_cast h3
      refine ⟨by positivity, hq52, hq53, ⟨52 - e, Or.inl rfl⟩⟩
    · rw [if_neg he52]
      have hps : (0 : ℚ) < ((2 ^ (e - 52) : Nat) : ℚ) := by positivity
      have hq52 : (2 : ℚ) ^ 52 ≤ q * ((2 ^ (e - 52) : Nat) : ℚ)⁻¹ := by
        rw [hqnd, div_mul_eq_mul_div, mul_comm ((n : ℚ)), inv_mul_eq_div, div_div,
            le_div_iff₀ (by positivity)]
        have h4 : (2 ^ 52 * (2 ^ (e - 52) * d) : Nat) ≤ n := by
          have h3 : 2 ^ 52 * (2 ^ (e - 52) * d) = 2 ^ e * d := by
            rw [← mul_assoc, ← pow_add, show 52 + (e - 52) = e by omega]
          rw [h3]
          exact hlo'
        exact_mod_cast h4
      have hq53 : q * ((2 ^ (e - 52) : Nat) : ℚ)⁻¹ < 2 ^ 53 := by
        rw [hqnd, div_mul_eq_mul_div, mul_comm ((n : ℚ)), inv_mul_eq_div, div_div,
            div_lt_iff₀ (by positivity)]
        have h4 : n < (2 ^ 53 * (2 ^ (e - 52) * d) : Nat) := by
          have h3 : 2 ^ 53 * (2 ^ (e - 52) * d) = 2 ^ (e + 1) * d := by
            rw [← mul_assoc, ← pow_add, show 53 + (e - 52) = e + 1 by omega]
          rw [h3]
          exact hhi'
        exact_mod_cast h4
      refine ⟨by positivity, hq52, hq53, ⟨e - 52, Or.inr rfl⟩⟩
  · rw [if_neg hdn]
    push_neg at hdn
    have hdn1 : 0 < d / n := Nat.div_pos (le_of_lt hdn) hn0
    obtain ⟨hlo, hhi⟩ := nlog2_spec (d / n) hdn1
    set s0 := nlog2 (d / n) with hs0
    have hup : n * 2 ^ s0 ≤ d := by
      calc n * 2 ^ s0 ≤ n * (d / n) := Nat.mul_le_mul_left n hlo
        _ ≤ d := Nat.mul_div_le d n
    have hdown : d < n * 2 ^ (s0 + 1) := by
      calc d < (d / n + 1) * n := nat_lt_div_succ_mul d n hn0
        _ ≤ 2 ^ (s0 + 1) * n := Nat.mul_le_mul_right n hhi
        _ = n * 2 ^ (s0 + 1) := mul_comm _ _
    set s := if d ≤ n * 2 ^ s0 then s0 else s0 + 1 with hs
    have hkey : d ≤ n * 2 ^ s ∧ n * 2 ^ s < 2 * d := by
      rw [hs]
      by_cases hc : d ≤ n * 2 ^ s0
      · rw [if_pos hc]
        omega
      · rw [if_neg hc]
        rw [pow_succ, ← mul_assoc] at hdown ⊢
        push_neg at hc
        omega
    have hq52 : (2 : ℚ) ^ 52 ≤ q * ((2 ^ (52 + s) : Nat) : ℚ) := by
      rw [hqnd, div_mul_eq_mul_div, le_div_iff₀ hdq]
      have h3 : (2 ^ 52 * d : Nat) ≤ n * 2 ^ (52 + s) := by
        calc 2 ^ 52 * d ≤ 2 ^ 52 * (n * 2 ^ s) := Nat.mul_le_mul_left _ hkey.1
          _ = n * 2 ^ (52 + s) := by rw [pow_add]; ring
      exact_mod_cast h3
    have hq53 : q * ((2 ^ (52 + s) : Nat) : ℚ) < 2 ^ 53 := by
      rw [hqnd, div_mul_eq_mul_div, div_lt_iff₀ hdq]
      have h3 : n * 2 ^ (52 + s) < 2 ^ 53 * d := by
        calc n * 2 ^ (52 + s) = 2 ^ 52 * (n * 2 ^ s) := by rw [pow_add]; ring
          _ < 2 ^ 52 * (2 * d) :=
            (Nat.mul_lt_mul_left (Nat.pos_pow_of_pos _ (by norm_num))).2 hkey.2
          _ = 2 ^ 53 * d := by ring
      exact_mod_cast h3
    refine ⟨by positivity, hq52, hq53, ⟨52 + s, Or.inl rfl⟩⟩

theorem flRound_pos (q : ℚ) (hq : 0 < q) :
    flRound q =
      ((rne (q * flScale q.num.natAbs q.den) : ℚ) / flScale q.num.natAbs q.den) := by
  unfold flRound
  rw [if_neg (ne_of_gt hq), if_neg (not_lt.2 hq.le)]

theorem rne_natCast (n : Nat) : rne ((n : ℕ) : ℚ) = n := by
  have h := rne_intCast (n : ℤ)
  push_cast at h
  exact_mod_cast h

theorem two_le_two_pow (k : Nat) (hk : 1 ≤ k) : (2 : ℚ) ≤ 2 ^ k := by
  calc (2 : ℚ) = 2 ^ 1 := (pow_one 2).symm
    _ ≤ 2 ^ k := pow_le_pow_right₀ (by norm_num) hk

/-- `flRound` is the identity on dyadic rationals with at most 53
significant bits (every such value is exactly representable). -/
theorem flRound_dyadic (a k : Nat) (h0 : 0 < a) (h53 : a < 2 ^ 53) :
    flRound ((a : ℚ) / 2 ^ k) = (a : ℚ) / 2 ^ k := by
  have hq : (0 : ℚ) < (a : ℚ) / 2 ^ k := by positivity
  have ha53 : (a : ℚ) < 2 ^ 53 := by exact_mod_cast h53
  obtain ⟨hpos, h52, hlt, m, hform | hform⟩ := flScale_spec _ hq
  · rw [flRound_pos _ hq, hform]
    by_cases hmk : k ≤ m
    · have hint : ((a : ℚ) / 2 ^ k) * ((2 ^ m : Nat) : ℚ) = ((a * 2 ^ (m - k) : Nat) : ℚ) := by
        push_cast
        rw [pow_sub₀ (2 : ℚ) (by norm_num) hmk]
        field_simp
      rw [hint, rne_natCast]
      push_cast
      rw [pow_sub₀ (2 : ℚ) (by norm_num) hmk]
      field_simp
      ring
    · exfalso
      rw [hform] at h52
      have h1 : ((a : ℚ) / 2 ^ k) * ((2 ^ m : Nat) : ℚ) = (a : ℚ) / 2 ^ (k - m) := by
        push_cast
        rw [pow_sub₀ (2 : ℚ) (by norm_num) (by omega : m ≤ k)]
        field_simp
      rw [h1] at h52
      have h2 : (a : ℚ) / 2 ^ (k - m) ≤ (a : ℚ) / 2 :=
        div_le_div_of_nonneg_left (by positivity) (by norm_num)
          (two_le_two_pow _ (by omega))
      linarith
  · have h1 : ((a : ℚ) / 2 ^ k) * ((2 ^ m : Nat) : ℚ)⁻¹ = (a : ℚ) / 2 ^ (k + m) := by
      push_cast
      rw [pow_add]
      field_simp
    by_cases hkm : k + m = 0
    · have hk0 : k = 0 := by omega
      have hm0 : m = 0 := by omega
      subst hk0
      subst hm0
      rw [flRound_pos _ hq, hform, h1]
      norm_num
      rw [rne_natCast]
      norm_cast
    · exfalso
      rw [hform, h1] at h52
      have h2 : (a : ℚ) / 2 ^ (k + m) ≤ (a : ℚ) / 2 :=
        div_le_div_of_nonneg_left (by positivity) (by norm_num)
          (two_le_two_pow _ (by omega))
      linarith

/-- Dividing a `u32`-sized value by a factor clamped to `[1/4, 4]` and
rounding to binary64 stays within the exact bounds `[c/4, 4c]` (both are
representable, so the rounding cannot cross them). -/
theorem flRound_div_bounds (c : Nat) (hc : c < 2 ^ 32) (f : ℚ)
    (hf1 : 1 / 4 ≤ f) (hf4 : f ≤ 4) :
    (c : ℚ) / 4 ≤ flRound ((c : ℚ) / f) ∧ flRound ((c : ℚ) / f) ≤ 4 * (c : ℚ) := by
  have hf0 : (0 : ℚ) < f := lt_of_lt_of_le (by norm_num) hf1
  rcases Nat.eq_zero_or_pos c with hc0 | hc0
  · subst hc0
    norm_num [flRound]
  · have hcq : (0 : ℚ) < (c : ℚ) := by exact_mod_cast hc0
    have hc32 : (c : ℚ) < 2 ^ 32 := by exact_mod_cast hc
    have hv : (0 : ℚ) < (c : ℚ) / f := div_pos hcq hf0
    have hv4 : (c : ℚ) / f ≤ 4 * c := by
      rw [div_le_iff₀ hf0]
      nlinarith
    have hv14 : (c : ℚ) / 4 ≤ (c : ℚ) / f :=
      div_le_div_of_nonneg_left hcq.le hf0 hf4
    obtain ⟨hpos, h52, hlt, m, hform | hform⟩ := flScale_spec _ hv
    swap
    · exfalso
      have hsmall : ((2 ^ m : Nat) : ℚ)⁻¹ ≤ 1 := by
        rw [inv_le_one_iff₀]
        right
        exact_mod_cast Nat.one_le_two_pow
      have hbig : (2 : ℚ) ^ 52 ≤ ((c : ℚ) / f) * 1 := by
        calc (2 : ℚ) ^ 52 ≤ ((c : ℚ) / f) * ((2 ^ m : Nat) : ℚ)⁻¹ := by rw [← hform]; exact h52
          _ ≤ ((c : ℚ) / f) * 1 := by
              apply mul_le_mul_of_nonneg_left hsmall hv.le
      rw [mul_one] at hbig
      have : (c : ℚ) / f < 2 ^ 34 := by
        calc (c : ℚ) / f ≤ 4 * c := hv4
          _ < 4 * 2 ^ 32 := by linarith
          _ = 2 ^ 34 := by norm_num
      linarith [show (2 : ℚ) ^ 34 ≤ 2 ^ 52 by norm_num]
    · -- the scale is a straight power of two, large because c/f < 2^34
      have hmpos : (0 : ℚ) < ((2 ^ m : Nat) : ℚ) := by positivity
      have hm2 : 2 ≤ m := by
        by_contra hm1
        push_neg at hm1
        have h8 : ((2 ^ m : Nat) : ℚ) ≤ 2 := by
          interval_cases m
          all_goals norm_num
        have hup : ((c : ℚ) / f) * ((2 ^ m : Nat) : ℚ) < 2 ^ 34 * 2 := by
          have hvlt : (c : ℚ) / f < 2 ^ 34 := by
            calc (c : ℚ) / f ≤ 4 * c := hv4
              _ < 4 * 2 ^ 32 := by linarith
              _ = 2 ^ 34 := by norm_num
          calc ((c : ℚ) / f) * ((2 ^ m : Nat) : ℚ) ≤ ((c : ℚ) / f) * 2 :=
                mul_le_mul_of_nonneg_left h8 hv.le
            _ < 2 ^ 34 * 2 := by linarith
        rw [hform] at h52
        linarith [show (2 : ℚ) ^ 34 * 2 ≤ 2 ^ 52 by norm_num]
      rw [flRound_pos _ hv, hform]
      have hL : ((c * 2 ^ (m - 2) : Nat) : ℚ) = ((c : ℚ) / 4) * ((2 ^ m : Nat) : ℚ) := by
        push_cast
        rw [show m = (m - 2) + 2 by omega, pow_add]
        field_simp
        ring
      have hU : ((c * 2 ^ (m + 2) : Nat) : ℚ) = (4 * (c : ℚ)) * ((2 ^ m : Nat) : ℚ) := by
        push_cast
        rw [pow_add]
        ring
      have hLle : ((c * 2 ^ (m - 2) : Nat) : ℚ) ≤ ((c : ℚ) / f) * ((2 ^ m : Nat) : ℚ) := by
        rw [hL]
        exact mul_le_mul_of_nonneg_right hv14 hmpos.le
      have hUge : ((c : ℚ) / f) * ((2 ^ m : Nat) : ℚ) ≤ ((c * 2 ^ (m + 2) : Nat) : ℚ) := by
        rw [hU]
        exact mul_le_mul_of_nonneg_right hv4 hmpos.le
      have hrneL : ((c * 2 ^ (m - 2) : Nat) : ℤ) ≤ rne (((c : ℚ) / f) * ((2 ^ m : Nat) : ℚ)) := by
        have hfl : ((c * 2 ^ (m - 2) : Nat) : ℤ) ≤ ⌊((c : ℚ) / f) * ((2 ^ m : Nat) : ℚ)⌋ := by
          rw [Int.le_floor]
          exact_mod_cast hLle
        exact le_trans hfl (rne_bounds _).1
      have hrneU : rne (((c : ℚ) / f) * ((2 ^ m : Nat) : ℚ)) ≤ ((c * 2 ^ (m + 2) : Nat) : ℤ) := by
        rcases eq_or_lt_of_le hUge with heq | hlt'
        · rw [heq]
          rw [show (((c * 2 ^ (m + 2) : Nat) : ℚ)) = (((c * 2 ^ (m + 2) : ℕ) : ℚ)) from rfl,
              rne_natCast]
        · have hfl : ⌊((c : ℚ) / f) * ((2 ^ m : Nat) : ℚ)⌋ < ((c * 2 ^ (m + 2) : Nat) : ℤ) := by
            rw [Int.floor_lt]
            exact_mod_cast hlt'
          have := (rne_bounds (((c : ℚ) / f) * ((2 ^ m : Nat) : ℚ))).2
          omega
      constructor
      · calc (c : ℚ) / 4 = ((c * 2 ^ (m - 2) : Nat) : ℚ) / ((2 ^ m : Nat) : ℚ) := by
              rw [hL, mul_div_cancel_right₀ _ (ne_of_gt hmpos)]
          _ ≤ (rne (((c : ℚ) / f) * ((2 ^ m : Nat) : ℚ)) : ℚ) / ((2 ^ m : Nat) : ℚ) := by
              gcongr
              exact_mod_cast hrneL
      · calc (rne (((c : ℚ) / f) * ((2 ^ m : Nat) : ℚ)) : ℚ) / ((2 ^ m : Nat) : ℚ)
              ≤ ((c * 2 ^ (m + 2) : Nat) : ℚ) / ((2 ^ m : Nat) : ℚ) := by
              gcongr
              exact_mod_cast hrneU
          _ = 4 * (c : ℚ) := by rw [hU, mul_div_cancel_right₀ _ (ne_of_gt hmpos)]

theorem roundHalfAway_mono_nonneg (a b : ℚ) (ha : 0 ≤ a) (h : a ≤ b) :
    roundHalfAway a ≤ roundHalfAway b := by
  unfold roundHalfAway
  rw [if_pos ha, if_pos (ha.trans h)]
  exact Int.floor_le_floor (by linarith)

theorem asU32_mono (a b : Int) (h : a ≤ b) : asU32 a ≤ asU32 b := by
  unfold asU32
  repeat' split
  all_goals omega

theorem retargetResultBounds (c : Nat) (hc : c < 2 ^ 32) (F : ℚ)
    (h1 : 1 / 4 ≤ F) (h4 : F ≤ 4) :
    max (asU32 (roundHalfAway ((c : ℚ) / 4))) 1
      ≤ max (asU32 (roundHalfAway (flRound ((c : ℚ) / F)))) 1 ∧
    max (asU32 (roundHalfAway (flRound ((c : ℚ) / F)))) 1
      ≤ max (asU32 (roundHalfAway (4 * (c : ℚ)))) 1 := by
  obtain ⟨hl, hu⟩ := flRound_div_bounds c hc F h1 h4
  have hm1 := roundHalfAway_mono_nonneg _ _ (by positivity) hl
  have hm2 := roundHalfAway_mono_nonneg _ _ (le_trans (by positivity) hl) hu
  exact ⟨max_le_max (asU32_mono _ _ hm1) le_rfl, max_le_max (asU32_mono _ _ hm2) le_rfl⟩

/-- The default configuration with `initial_difficulty` raised to 5 (the
genesis block's difficulty stays hard-coded at 1). -/
def config5 : BlockchainConfig := { defaultConfig with initial_difficulty := 5 }

/-- C6 (counterexample): on the chain `Blockchain::new` builds with
`initial_difficulty = 5`, the height (1) is not a retarget boundary
(1 % 2016 ≠ 0), yet the expected difficulty of the next block is the
configured initial difficulty 5, not the previous block's difficulty 1. -/
theorem C6_counterexample :
    (Blockchain.new config5 genesisAddr 1704067200).map
      (fun st => (st.blocks.length % st.config.difficulty_adjustment_interval,
                  st.calculate_next_difficulty,
                  st.get_latest_block.map (fun b => b.header.difficulty))) =
    .ok (1, 5, some 1) := by
  decide

/-- C6 (amended): with a positive adjustment interval and target block
time — below one full window the expected difficulty is the configured
initial difficulty; at a non-boundary height with a full window it is the
previous block's difficulty; at a retarget boundary the difficulty is
divided in binary64 arithmetic by the ratio of actual to expected window
time clamped to `[1/4, 4]`, rounded half away from zero, saturating-cast
to `u32` and floored at 1 — so the result always lies between those
operations applied to `c/4` and to `4c` — and on inputs where every
rounded intermediate value is exactly representable it equals the current
difficulty times `target_time / actual_time` clamped to `[1/4, 4]`,
rounded, cast and floored the same way. -/
theorem C6_retarget_rule (st : Blockchain)
    (hI : 0 < st.config.difficulty_adjustment_interval)
    (hT : 0 < st.config.target_block_time) :
    (st.blocks.length < st.config.difficulty_adjustment_interval →
       st.calculate_next_difficulty = st.config.initial_difficulty) ∧
    (st.config.difficulty_adjustment_interval ≤ st.blocks.length →
     st.blocks.length % st.config.difficulty_adjustment_interval ≠ 0 →
     ∀ b, st.get_latest_block = some b →
       st.calculate_next_difficulty = b.header.difficulty) ∧
    (st.config.difficulty_adjustment_interval ≤ st.blocks.length →
     st.blocks.length % st.config.difficulty_adjustment_interval = 0 →
     ∀ startB endB : Block,
       st.blocks.getD (st.blocks.length - st.config.difficulty_adjustment_interval) default
         = startB →
       st.blocks.getD (st.blocks.length - 1) default = endB →
       endB.header.difficulty < 2 ^ 32 →
       (max (asU32 (roundHalfAway ((endB.header.difficulty : ℚ) / 4))) 1 ≤ st.calculate_next_difficulty ∧
        st.calculate_next_difficulty ≤ max (asU32 (roundHalfAway (4 * (endB.header.difficulty : ℚ)))) 1) ∧
       ((0 : Int) < endB.header.timestamp - startB.header.timestamp →
        flRound ((endB.header.timestamp - startB.header.timestamp : Int) : ℚ)
          = ((endB.header.timestamp - startB.header.timestamp : Int) : ℚ) →
        flRound (st.config.difficulty_adjustment_interval : ℚ)
          = (st.config.difficulty_adjustment_interval : ℚ) →
        flRound (st.config.target_block_time : ℚ) = (st.config.target_block_time : ℚ) →
        flRound ((st.config.difficulty_adjustment_interval : ℚ) *
            (st.config.target_block_time : ℚ))
          = (st.config.difficulty_adjustment_interval : ℚ) *
            (st.config.target_block_time : ℚ) →
        flRound (((endB.header.timestamp - startB.header.timestamp : Int) : ℚ) /
            ((st.config.difficulty_adjustment_interval : ℚ) *
             (st.config.target_block_time : ℚ)))
          = ((endB.header.timestamp - startB.header.timestamp : Int) : ℚ) /
            ((st.config.difficulty_adjustment_interval : ℚ) *
             (st.config.target_block_time : ℚ)) →
        flRound ((endB.header.difficulty : ℚ) /
            min (max (((endB.header.timestamp - startB.header.timestamp : Int) : ℚ) /
                ((st.config.difficulty_adjustment_interval : ℚ) *
                 (st.config.target_block_time : ℚ))) (1 / 4)) 4)
          = (endB.header.difficulty : ℚ) /
            min (max (((endB.header.timestamp - startB.header.timestamp : Int) : ℚ) /
                ((st.config.difficulty_adjustment_interval : ℚ) *
                 (st.config.target_block_time : ℚ))) (1 / 4)) 4 →
        st.calculate_next_difficulty =
          max (asU32 (roundHalfAway ((endB.header.difficulty : ℚ) *
            min (max (((st.config.difficulty_adjustment_interval : ℚ) *
                (st.config.target_block_time : ℚ)) /
                ((endB.header.timestamp - startB.header.timestamp : Int) : ℚ)) (1 / 4)) 4))) 1)) := by
  refine ⟨?_, ?_, ?_⟩
  · intro hlt
    unfold Blockchain.calculate_next_difficulty
    rw [if_pos hlt]
  · intro hge hmod b hb
    unfold Blockchain.calculate_next_difficulty
    rw [if_neg (by omega)]
    rw [if_pos (by simpa using hmod)]
    rw [hb]
  · intro hge hmod startB endB hs he hc32
    unfold Blockchain.calculate_next_difficulty
    rw [if_neg (by omega)]
    rw [if_neg (by simp [hmod])]
    rw [hs, he]
    dsimp only
    constructor
    · -- unconditional clamp bounds
      by_cases hE0 : flRound (flRound (st.config.difficulty_adjustment_interval : ℚ) *
          flRound (st.config.target_block_time : ℚ)) = 0
      · rw [if_pos hE0]
        by_cases ht0 : (0 : ℚ) < flRound
            ((endB.header.timestamp - startB.header.timestamp : Int) : ℚ)
        · rw [if_pos ht0]
          exact retargetResultBounds _ hc32 4 (by norm_num) (by norm_num)
        · rw [if_neg ht0]
          exact retargetResultBounds _ hc32 (1 / 4) (by norm_num) (by norm_num)
      · rw [if_neg hE0]
        exact retargetResultBounds _ hc32 _
          (le_min (le_max_right _ _) (by norm_num)) (min_le_right _ _)
    · -- exact equality under representability of every rounded value
      intro hpos hE1 hE2 hE3 hE4 hE5 hE6
      rw [hE1, hE2, hE3, hE4, hE5]
      have het : (0 : ℚ) < (st.config.difficulty_adjustment_interval : ℚ) *
          (st.config.target_block_time : ℚ) := by
        have := hI
        have := hT
        positivity
      rw [if_neg (ne_of_gt het), hE6]
      have htt : (0 : ℚ) < ((endB.header.timestamp - startB.header.timestamp : Int) : ℚ) := by
        exact_mod_cast hpos
      have hr : (0 : ℚ) < ((endB.header.timestamp - startB.header.timestamp : Int) : ℚ) /
          ((st.config.difficulty_adjustment_interval : ℚ) *
           (st.config.target_block_time : ℚ)) :=
        div_pos htt het
      rw [div_eq_mul_inv ((endB.header.difficulty : Nat) : ℚ), clamp_inv _ hr, inv_div]

def c6Block1 : Block :=
  { header := { version := 1, previous_hash := zeroHash, merkle_root := zeroHash,
                timestamp := 1200, difficulty := 7, nonce := 0,
                transaction_count := 0, size := 0, metadata_hash := none },
    transactions := [], metadata := defaultMetadata, index := 1 }

def c6State : Blockchain :=
  { config := { defaultConfig with
                difficulty_adjustment_interval := 2, target_block_time := 300 },
    blocks := [default, c6Block1], utxo_set := [], transaction_pool := [],
    block_index := [] }

/-- C6 witness: the amended theorem's boundary branch applied at the
concrete state (window 1200 s against a 600 s target: the factor is 2 and
7 / 2 = 3.5 rounds half away from zero to 4). -/
theorem C6_retarget_rule_witness :
    0 < c6State.config.difficulty_adjustment_interval ∧
    c6State.blocks.length % c6State.config.difficulty_adjustment_interval = 0 ∧
    (max (asU32 (roundHalfAway ((c6Block1.header.difficulty : ℚ) / 4))) 1
       ≤ c6State.calculate_next_difficulty ∧
     c6State.calculate_next_difficulty
       ≤ max (asU32 (roundHalfAway (4 * (c6Block1.header.difficulty : ℚ)))) 1) ∧
    c6State.calculate_next_difficulty =
      max (asU32 (roundHalfAway ((c6Block1.header.difficulty : ℚ) *
        min (max (((c6State.config.difficulty_adjustment_interval : ℚ) *
            (c6State.config.target_block_time : ℚ)) /
            ((c6Block1.header.timestamp - (default : Block).header.timestamp : Int) : ℚ))
          (1 / 4)) 4))) 1 := by
  have h3 := (C6_retarget_rule c6State (by decide) (by decide)).2.2 (by decide) (by decide)
    default c6Block1 (by decide) (by decide) (by decide)
  refine ⟨by decide, by decide, h3.1, h3.2 (by decide) ?_ ?_ ?_ ?_ ?_ ?_⟩
  · show flRound (((1200 : Int) : ℚ)) = ((1200 : Int) : ℚ)
    have h := flRound_dyadic 1200 0 (by norm_num) (by norm_num)
    norm_num at h ⊢
    exact h
  · show flRound (((2 : Nat) : ℚ)) = ((2 : Nat) : ℚ)
    have h := flRound_dyadic 2 0 (by norm_num) (by norm_num)
    norm_num at h ⊢
    exact h
  · show flRound (((300 : Nat) : ℚ)) = ((300 : Nat) : ℚ)
    have h := flRound_dyadic 300 0 (by norm_num) (by norm_num)
    norm_num at h ⊢
    exact h
  · show flRound (((2 : Nat) : ℚ) * ((300 : Nat) : ℚ)) = ((2 : Nat) : ℚ) * ((300 : Nat) : ℚ)
    have h := flRound_dyadic 600 0 (by norm_num) (by norm_num)
    norm_num at h ⊢
    exact h
  · show flRound (((1200 : Int) : ℚ) / (((2 : Nat) : ℚ) * ((300 : Nat) : ℚ)))
      = ((1200 : Int) : ℚ) / (((2 : Nat) : ℚ) * ((300 : Nat) : ℚ))
    have h := flRound_dyadic 2 0 (by norm_num) (by norm_num)
    norm_num at h ⊢
    exact h
  · show flRound (((7 : Nat) : ℚ) /
        min (max ((((1200 : Int) : ℚ)) / (((2 : Nat) : ℚ) * ((300 : Nat) : ℚ))) (1 / 4)) 4)
      = ((7 : Nat) : ℚ) /
        min (max ((((1200 : Int) : ℚ)) / (((2 : Nat) : ℚ) * ((300 : Nat) : ℚ))) (1 / 4)) 4
    have h := flRound_dyadic 7 1 (by norm_num) (by norm_num)
    norm_num [max_def, min_def] at h ⊢
    exact h

end BC
